import Mathlib

/-!
# Edgy Baking (Google Code Jam 2018, round 1A): `check`, `rec`, `work`

A shallow embedding of `src/google-code-jam/18/1a/edgy-baking.cpp`.

Modelling choices.

* `int` is a 32-bit integer.  Its values are the elements of `ℤ` in
  `-2^31 .. 2^31 - 1`, and the result of an `int` addition or multiplication
  is `wrap` of the mathematical result, its representative modulo 2^32 in
  that range.  The expressions wrapped are `2 * min(w, h)`, `w + h`,
  `2 * (w + h)`, `have += ...` and `lo + cs[i].fst`.  The increments `lvl + 1`
  and `i + 1` are not wrapped: they are computed only for `lvl < 3` and for
  `i < n`, where they cannot overflow.
* `double` is `ℚ`: every finite double is a rational number, the comparison
  of doubles is the comparison of their values, and the conversion
  `int -> double` is exact on 32-bit integers, so it is the cast `ℤ → ℚ`.
  The two operations that round, `+` on doubles and `hypot`, are not fixed:
  they are the fields of a `DoubleArith`, constrained only by laws that
  IEEE-754 arithmetic satisfies on the values of the program: rounding is
  monotone and leaves the integers up to 2^53 fixed, and `hypot` is within
  one unit in the last place (a relative error of at most `2^-52`) of the
  square root.  Multiplication by 2 is exact in binary floating point and is
  the multiplication of `ℚ`.
* The global buffers `cs`, `sum` and the global `p` form the record
  `Globals`.  A buffer is a total function from the index to the cell.
* `scanf` is modelled by the data it delivers: the cap and the boxes.
-/

namespace EdgyBaking

/-- The rounding operations of `double` and the laws used about them. -/
structure DoubleArith where
  /-- Addition of two doubles. -/
  add : ℚ → ℚ → ℚ
  /-- The call `hypot(w, h)` on two `int` arguments. -/
  hypot : ℤ → ℤ → ℚ
  /-- Adding `0.0` changes nothing. -/
  add_zero : ∀ x, add x 0 = x
  /-- Rounded addition is monotone in the second summand. -/
  add_mono : ∀ x a b, a ≤ b → add x a ≤ add x b
  /-- The result of `hypot` is never negative. -/
  hypot_nonneg : ∀ w h, 0 ≤ hypot w h
  /-- A rounded sum is not below an integer of absolute value at most 2^53 that
  the exact sum is not below: rounding is monotone and such an integer is a
  double. -/
  add_int : ∀ (x y : ℚ) (m : ℤ), -9007199254740992 ≤ m → m ≤ 9007199254740992 →
    (m : ℚ) ≤ x + y → (m : ℚ) ≤ add x y
  /-- On 32-bit arguments `hypot(w, h)` is not below the square root of
  `w^2 + h^2` by more than the relative error `2^-52`. -/
  hypot_sq_ge : ∀ w h : ℤ, -2147483648 ≤ w → w ≤ 2147483647 → -2147483648 ≤ h →
    h ≤ 2147483647 → (1 - 1 / 2 ^ 52) ^ 2 * ((w * w + h * h : ℤ) : ℚ) ≤ hypot w h ^ 2
  /-- On 32-bit arguments `hypot(w, h)` is not above the square root of
  `w^2 + h^2` by more than the relative error `2^-52`. -/
  hypot_sq_le : ∀ w h : ℤ, -2147483648 ≤ w → w ≤ 2147483647 → -2147483648 ≤ h →
    h ≤ 2147483647 → hypot w h ^ 2 ≤ (1 + 1 / 2 ^ 52) ^ 2 * ((w * w + h * h : ℤ) : ℚ)

/-- The square root of `N`, rounded down to a multiple of `1 / K`. -/
def gridSqrt (K N : ℕ) : ℚ := ((Nat.sqrt (N * (K * K)) : ℕ) : ℚ) / (K : ℚ)

/-- Arithmetic with an exact `+`, and with `hypot` the square root of
`w*w + h*h` rounded down to a multiple of `2^-60`: the true value whenever
that number is a perfect square (there the double result is exact as well),
and within the relative error `2^-60` of it otherwise.  It is used to
evaluate the program on boxes such as `(3, 4)`. -/
def exactArith : DoubleArith where
  add := fun x y => x + y
  hypot := fun w h => gridSqrt (2 ^ 60) (w * w + h * h).toNat
  add_zero := fun x => by simp
  add_mono := fun x a b h => by simpa using h
  hypot_nonneg := fun w h => by unfold gridSqrt; positivity
  add_int := fun x y m _ _ h => h
  hypot_sq_ge := fun w h _ _ _ _ => by
    have key : ∀ (K N : ℕ) (e : ℚ), 1 ≤ K → 0 ≤ e → e * (1 + 1 / (K : ℚ)) ≤ 1 →
        e ^ 2 * (N : ℚ) ≤ gridSqrt K N ^ 2 := by
      intro K N e hK he0 he
      rcases Nat.eq_zero_or_pos N with h0 | hN
      · subst h0
        simp only [Nat.cast_zero, mul_zero]
        positivity
      have hs : N * (K * K) < (Nat.sqrt (N * (K * K)) + 1) * (Nat.sqrt (N * (K * K)) + 1) :=
        Nat.lt_succ_sqrt (N * (K * K))
      unfold gridSqrt
      generalize Nat.sqrt (N * (K * K)) = s at hs ⊢
      have hKs : K ≤ s := by
        by_contra h
        push_neg at h
        have h1 : (s + 1) * (s + 1) ≤ K * K := Nat.mul_le_mul h h
        have h3 : 1 * (K * K) ≤ N * (K * K) := Nat.mul_le_mul_right _ hN
        omega
      have hKq : (K : ℚ) ≤ (s : ℚ) := by exact_mod_cast hKs
      have hKpos : (0 : ℚ) < (K : ℚ) := by exact_mod_cast hK
      have hMq : (N : ℚ) * ((K : ℚ) * (K : ℚ)) < ((s : ℚ) + 1) * ((s : ℚ) + 1) := by
        exact_mod_cast hs
      have hspos : (0 : ℚ) < (s : ℚ) := lt_of_lt_of_le hKpos hKq
      have h1 : (s : ℚ) + 1 ≤ (s : ℚ) * (1 + 1 / (K : ℚ)) := by
        have h6 : (1 : ℚ) ≤ (s : ℚ) / (K : ℚ) := by
          rw [le_div_iff₀ hKpos]
          linarith
        have h2 : (s : ℚ) * (1 + 1 / (K : ℚ)) = (s : ℚ) + (s : ℚ) / (K : ℚ) := by
          field_simp
          ring
        rw [h2]
        linarith
      have h3 : e * ((s : ℚ) + 1) ≤ (s : ℚ) := by
        calc e * ((s : ℚ) + 1) ≤ e * ((s : ℚ) * (1 + 1 / (K : ℚ))) :=
              mul_le_mul_of_nonneg_left h1 he0
          _ = (s : ℚ) * (e * (1 + 1 / (K : ℚ))) := by ring
          _ ≤ (s : ℚ) * 1 := mul_le_mul_of_nonneg_left he (le_of_lt hspos)
          _ = (s : ℚ) := by ring
      have h4 : (e * ((s : ℚ) + 1)) ^ 2 ≤ (s : ℚ) ^ 2 :=
        pow_le_pow_left₀ (mul_nonneg he0 (by linarith)) h3 2
      have h5 : e ^ 2 * ((N : ℚ) * ((K : ℚ) * (K : ℚ))) ≤ (s : ℚ) ^ 2 := by
        calc e ^ 2 * ((N : ℚ) * ((K : ℚ) * (K : ℚ)))
            ≤ e ^ 2 * (((s : ℚ) + 1) * ((s : ℚ) + 1)) :=
              mul_le_mul_of_nonneg_left (le_of_lt hMq) (by positivity)
          _ = (e * ((s : ℚ) + 1)) ^ 2 := by ring
          _ ≤ (s : ℚ) ^ 2 := h4
      rw [div_pow, le_div_iff₀ (by positivity)]
      calc e ^ 2 * (N : ℚ) * (K : ℚ) ^ 2 = e ^ 2 * ((N : ℚ) * ((K : ℚ) * (K : ℚ))) := by ring
        _ ≤ (s : ℚ) ^ 2 := h5
    have hN : ((w * w + h * h : ℤ) : ℚ) = (((w * w + h * h).toNat : ℕ) : ℚ) := by
      have h0 : 0 ≤ w * w + h * h := add_nonneg (mul_self_nonneg w) (mul_self_nonneg h)
      have : (((w * w + h * h).toNat : ℕ) : ℤ) = w * w + h * h := Int.toNat_of_nonneg h0
      exact_mod_cast this.symm
    rw [hN]
    exact key (2 ^ 60) _ _ (Nat.one_le_two_pow) (by norm_num) (by norm_num)
  hypot_sq_le := fun w h _ _ _ _ => by
    have key : ∀ (K N : ℕ), 1 ≤ K → gridSqrt K N ^ 2 ≤ (N : ℚ) := by
      intro K N hK
      have hKpos : (0 : ℚ) < (K : ℚ) := by exact_mod_cast hK
      have h : ((Nat.sqrt (N * (K * K)) * Nat.sqrt (N * (K * K)) : ℕ) : ℚ) ≤
          ((N * (K * K) : ℕ) : ℚ) := by exact_mod_cast Nat.sqrt_le (N * (K * K))
      push_cast at h
      unfold gridSqrt
      rw [div_pow, div_le_iff₀ (by positivity)]
      calc ((Nat.sqrt (N * (K * K)) : ℕ) : ℚ) ^ 2
          = ((Nat.sqrt (N * (K * K)) : ℕ) : ℚ) * ((Nat.sqrt (N * (K * K)) : ℕ) : ℚ) := by ring
        _ ≤ (N : ℚ) * ((K : ℚ) * (K : ℚ)) := h
        _ = (N : ℚ) * (K : ℚ) ^ 2 := by ring
    have hN : ((w * w + h * h : ℤ) : ℚ) = (((w * w + h * h).toNat : ℕ) : ℚ) := by
      have h0 : 0 ≤ w * w + h * h := add_nonneg (mul_self_nonneg w) (mul_self_nonneg h)
      have : (((w * w + h * h).toNat : ℕ) : ℤ) = w * w + h * h := Int.toNat_of_nonneg h0
      exact_mod_cast this.symm
    rw [hN]
    have h1 := key (2 ^ 60) (w * w + h * h).toNat (Nat.one_le_two_pow)
    have h2 : (0 : ℚ) ≤ (((w * w + h * h).toNat : ℕ) : ℚ) := by positivity
    have h3 : (1 : ℚ) ≤ (1 + 1 / 2 ^ 52) ^ 2 := by norm_num
    calc gridSqrt (2 ^ 60) (w * w + h * h).toNat ^ 2
        ≤ 1 * (((w * w + h * h).toNat : ℕ) : ℚ) := by rw [one_mul]; exact h1
      _ ≤ (1 + 1 / 2 ^ 52) ^ 2 * (((w * w + h * h).toNat : ℕ) : ℚ) :=
          mul_le_mul_of_nonneg_right h3 h2

/-- An element of `cs`: `pair<int, double>`, `fst` the cost and `snd` the value. -/
abbrev Item := ℤ × ℚ

/-- The global variables `cs`, `p` and `sum`. -/
structure Globals where
  cs : ℤ → Item
  p : ℤ
  sum : ℤ → ℚ

/-- The indices visited by `rep (i, n)`, that is `for (i = 0; i < n; i++)`. -/
def rep (n : ℤ) : List ℤ := (List.range n.toNat).map Int.ofNat

/-- The value of an `int` expression whose mathematical result is `x`: the
representative of `x` modulo 2^32 = 4294967296 between -2^31 = -2147483648 and
2^31 - 1 (two's-complement wrap-around). -/
def wrap (x : ℤ) : ℤ := (x + 2147483648) % 4294967296 - 2147483648

/-- The function `check` of the source (it reads the global `p`). -/
def check (g : Globals) (lo : ℤ) (hi : ℚ) : ℚ :=
  if hi ≤ (g.p : ℚ) then hi
  else if lo ≤ g.p ∧ (g.p : ℚ) < hi then (g.p : ℚ)
  else -1

/-- The function `rec` of the source (it reads the globals `cs`, `sum`, `p`).
The `int` sum `lo + cs[i].fst` is wrapped to 32 bits. -/
def rec (A : DoubleArith) (g : Globals) (lvl n lo : ℤ) (hi : ℚ) : ℚ :=
  let ans := check g lo (A.add hi (if lvl = 3 then g.sum n else 0))
  if _h : lvl < 3 then
    (rep n).foldl
      (fun ans i => max ans (rec A g (lvl + 1) i (wrap (lo + (g.cs i).1)) (A.add hi (g.cs i).2)))
      ans
  else ans
termination_by (3 - lvl).toNat
decreasing_by omega

/-- One test case as `scanf` delivers it: the cap `P` and the boxes `(w, h)`;
the count `n` read first is the number of boxes that follow. -/
structure Input where
  p : ℤ
  boxes : List (ℤ × ℤ)

/-- The value read into `n`. -/
def Input.n (inp : Input) : ℤ := (inp.boxes.length : ℤ)

/-- The pair `{2 * min(w, h), 2 * hypot(w, h)}` stored for a box; the `int`
product `2 * min(w, h)` is wrapped to 32 bits. -/
def item (A : DoubleArith) (b : ℤ × ℤ) : Item :=
  (wrap (2 * min b.1 b.2), 2 * A.hypot b.1 b.2)

/-- The variables of the first loop of `work`: the buffer `cs`, the pointer
`ce` (as the index `ce - cs`) and the running total `have`. -/
structure ReadState where
  cs : ℤ → Item
  ce : ℤ
  have_ : ℤ

/-- One iteration of the first loop: `*(ce++) = {...}; have += 2 * (w + h);`,
with the `int` results of `w + h`, `2 * (w + h)` and `have + ...` wrapped to
32 bits. -/
def readStep (A : DoubleArith) (s : ReadState) (b : ℤ × ℤ) : ReadState :=
  { cs := Function.update s.cs s.ce (item A b)
    ce := s.ce + 1
    have_ := wrap (s.have_ + wrap (2 * wrap (b.1 + b.2))) }

/-- The first loop of `work`, started with `ce = cs` and `have = 0`. -/
def readLoop (A : DoubleArith) (cs : ℤ → Item) (boxes : List (ℤ × ℤ)) : ReadState :=
  boxes.foldl (readStep A) { cs := cs, ce := 0, have_ := 0 }

/-- The comparison `operator<` of `pair<int, double>`. -/
def pairLt (a b : Item) : Prop := a.1 < b.1 ∨ (¬ b.1 < a.1 ∧ a.2 < b.2)

instance (a b : Item) : Decidable (pairLt a b) := by
  unfold pairLt; infer_instance

/-- The order `sort` establishes between neighbours: not `b < a`. -/
def pairLe (a b : Item) : Prop := ¬ pairLt b a

instance (a b : Item) : Decidable (pairLe a b) := by
  unfold pairLe; infer_instance

instance : IsTotal Item pairLe where
  total := by
    intro a b
    unfold pairLe pairLt
    by_contra hcon
    push_neg at hcon
    obtain ⟨h1, h2⟩ := hcon
    rcases h1 with h | ⟨h, h'⟩ <;> rcases h2 with k | ⟨k, k'⟩
    · exact absurd h (not_lt.2 (le_of_lt k))
    · exact absurd h (not_lt.2 k)
    · exact absurd k (not_lt.2 h)
    · exact absurd h' (not_lt.2 (le_of_lt k'))

instance : IsTrans Item pairLe where
  trans := by
    intro a b c hab hbc
    unfold pairLe pairLt at *
    push_neg at *
    obtain ⟨h1, h2⟩ := hab
    obtain ⟨h3, h4⟩ := hbc
    constructor
    · exact le_trans h1 h3
    · intro hca
      have hab1 : a.1 = b.1 := le_antisymm h1 (by omega)
      have hbc1 : b.1 = c.1 := le_antisymm h3 (by omega)
      have e1 := h2 (by omega)
      have e2 := h4 (by omega)
      exact le_trans e1 e2

/-- The cells `buf[0], ..., buf[n-1]` of a buffer. -/
def cells {α : Type} (buf : ℤ → α) (n : ℤ) : List α := (rep n).map buf

/-- The call `sort(cs, ce)`: the cells `cs[0 .. ce)` are replaced by their
sorted rearrangement under `operator<`; the other cells are untouched. -/
def sortRange (cs : ℤ → Item) (ce : ℤ) : ℤ → Item :=
  fun i =>
    if 0 ≤ i ∧ i < ce then ((cells cs ce).insertionSort pairLe).getD i.toNat (cs i)
    else cs i

/-- The loop `rep (i, n) sum[i + 1] = sum[i] + cs[i].snd;`. -/
def sumLoop (A : DoubleArith) (cs : ℤ → Item) (sum : ℤ → ℚ) (n : ℤ) : ℤ → ℚ :=
  (rep n).foldl (fun s i => Function.update s (i + 1) (A.add (s i) (cs i).2)) sum

/-- The globals after the first loop and `sort(cs, ce)`. -/
def workSort (A : DoubleArith) (g : Globals) (inp : Input) : Globals :=
  let r := readLoop A g.cs inp.boxes
  { cs := sortRange r.cs r.ce, p := inp.p, sum := g.sum }

/-- The globals after the prefix-sum loop. -/
def workSums (A : DoubleArith) (g : Globals) (inp : Input) : Globals :=
  let g₁ := workSort A g inp
  { g₁ with sum := sumLoop A g₁.cs g₁.sum inp.n }

/-- The function `work` of the source: the value it returns, and the globals
it leaves behind. -/
def work (A : DoubleArith) (g : Globals) (inp : Input) : ℚ × Globals :=
  let have_ := (readLoop A g.cs inp.boxes).have_
  let g₂ := workSums A g inp
  (rec A g₂ 0 inp.n have_ (have_ : ℚ), g₂)

/-- The globals at program start: static storage is zero-initialised. -/
def zeroGlobals : Globals := { cs := fun _ => (0, 0), p := 0, sum := fun _ => 0 }

/-! ## The values `rec` compares

`IsPathCheck A g n lo hi v` says that `v` is one of the values of `check` that
the root call `rec(0, n, lo, hi)` is described to compare: the check of the
root, and the checks after selecting one, two or three items with strictly
decreasing indices below `n`, the last of them with `sum[k]` added. -/

/-- The value `v` is the check of one of the paths of `rec(0, n, lo, hi)`. -/
def IsPathCheck (A : DoubleArith) (g : Globals) (n lo : ℤ) (hi v : ℚ) : Prop :=
  v = check g lo hi ∨
  (∃ i, 0 ≤ i ∧ i < n ∧
    v = check g (wrap (lo + (g.cs i).1)) (A.add hi (g.cs i).2)) ∨
  (∃ i j, 0 ≤ j ∧ j < i ∧ i < n ∧
    v = check g (wrap (wrap (lo + (g.cs i).1) + (g.cs j).1)) (A.add (A.add hi (g.cs i).2) (g.cs j).2)) ∨
  (∃ i j k, 0 ≤ k ∧ k < j ∧ j < i ∧ i < n ∧
    v = check g (wrap (wrap (wrap (lo + (g.cs i).1) + (g.cs j).1) + (g.cs k).1))
      (A.add (A.add (A.add (A.add hi (g.cs i).2) (g.cs j).2) (g.cs k).2) (g.sum k)))

/-- The total `have` of the specification: the sum of `2 * (w + h)` over the boxes. -/
def perimeterSum (boxes : List (ℤ × ℤ)) : ℤ := (boxes.map fun b => 2 * (b.1 + b.2)).sum

/-- A well-formed test case: a non-negative cap and boxes with positive sides. -/
def WellFormed (inp : Input) : Prop := 0 ≤ inp.p ∧ ∀ b ∈ inp.boxes, 0 < b.1 ∧ 0 < b.2

instance (inp : Input) : Decidable (WellFormed inp) := by
  unfold WellFormed; infer_instance

/-- The total `have` as the program computes it, with 32-bit arithmetic. -/
def haveOf (boxes : List (ℤ × ℤ)) : ℤ :=
  boxes.foldl (fun hv b => wrap (hv + wrap (2 * wrap (b.1 + b.2)))) 0

/-- The largest value of `2 * min(w, h)` over the boxes (0 if there is none). -/
def maxCost (boxes : List (ℤ × ℤ)) : ℤ := (boxes.map fun b => 2 * min b.1 b.2).foldr max 0

/-- No `int` expression of the program overflows: `have` plus three times the
largest cost, a bound on `lo` after three selections, is at most
2^31 - 1 = 2147483647. -/
def NoOverflow (boxes : List (ℤ × ℤ)) : Prop :=
  perimeterSum boxes + 3 * maxCost boxes ≤ 2147483647

instance (boxes : List (ℤ × ℤ)) : Decidable (NoOverflow boxes) := by
  unfold NoOverflow; infer_instance

/-- A box list with sides that are not negative. -/
def NonNegBoxes (boxes : List (ℤ × ℤ)) : Prop := ∀ b ∈ boxes, 0 ≤ b.1 ∧ 0 ≤ b.2

instance (boxes : List (ℤ × ℤ)) : Decidable (NonNegBoxes boxes) := by
  unfold NonNegBoxes; infer_instance

/-! ## The calls of `rec`

The arguments of one call of `rec`, the recursive calls its body makes, and
the calls reachable from a root call. -/

/-- The arguments `(lvl, n, lo, hi)` of a call of `rec`. -/
structure Call where
  lvl : ℤ
  n : ℤ
  lo : ℤ
  hi : ℚ

/-- The recursive calls made by the body of `rec` on the arguments `c`, in the
order of the loop: below level 3 one call `rec(lvl + 1, i, lo + cs[i].fst,
hi + cs[i].snd)` for each `i` of `rep (i, n)`, and none from level 3 on. -/
def calls (A : DoubleArith) (g : Globals) (c : Call) : List Call :=
  if c.lvl < 3 then
    (rep c.n).map fun i =>
      { lvl := c.lvl + 1, n := i, lo := wrap (c.lo + (g.cs i).1), hi := A.add c.hi (g.cs i).2 }
  else []

/-- The calls reachable from the call `root`: the root itself, and every call
made by the body of a reachable call. -/
inductive Reach (A : DoubleArith) (g : Globals) (root : Call) : Call → Prop
  | root : Reach A g root root
  | step {c d : Call} : Reach A g root c → d ∈ calls A g c → Reach A g root d

/-- The pair `(lo', hi')` is the argument pair of `check` on one of the paths
of the root call `rec(0, n, lo, hi)`; it does not depend on `p`. -/
def PathArgs (A : DoubleArith) (g : Globals) (n lo : ℤ) (hi : ℚ) (lo' : ℤ) (hi' : ℚ) : Prop :=
  (lo' = lo ∧ hi' = hi) ∨
  (∃ i, 0 ≤ i ∧ i < n ∧
    lo' = wrap (lo + (g.cs i).1) ∧ hi' = A.add hi (g.cs i).2) ∨
  (∃ i j, 0 ≤ j ∧ j < i ∧ i < n ∧
    lo' = wrap (wrap (lo + (g.cs i).1) + (g.cs j).1) ∧ hi' = A.add (A.add hi (g.cs i).2) (g.cs j).2) ∨
  (∃ i j k, 0 ≤ k ∧ k < j ∧ j < i ∧ i < n ∧
    lo' = wrap (wrap (wrap (lo + (g.cs i).1) + (g.cs j).1) + (g.cs k).1) ∧
    hi' = A.add (A.add (A.add (A.add hi (g.cs i).2) (g.cs j).2) (g.cs k).2) (g.sum k))

/-! ## The program with checked array accesses

The buffers `cs` and `sum` have `N = 105` cells.  In the definitions below
every access to a cell goes through `readAt` or `writeAt`, which fail outside
`0 .. N - 1`; the result is `none` as soon as one access is out of bounds. -/

/-- The constant `N` of the source: the number of cells of `cs` and of `sum`. -/
def N : ℤ := 105

/-- Reading the cell `buf[i]` of a buffer of `N` cells. -/
def readAt {α : Type} (buf : ℤ → α) (i : ℤ) : Option α :=
  if 0 ≤ i ∧ i < N then some (buf i) else none

/-- Writing the cell `buf[i]` of a buffer of `N` cells. -/
def writeAt {α : Type} (buf : ℤ → α) (i : ℤ) (v : α) : Option (ℤ → α) :=
  if 0 ≤ i ∧ i < N then some (Function.update buf i v) else none

/-- The function `rec` with checked accesses: `sum[n]` is read at level 3 only,
`cs[i]` in every iteration of the loop. -/
def recC (A : DoubleArith) (g : Globals) (lvl n lo : ℤ) (hi : ℚ) : Option ℚ :=
  match (if lvl = 3 then readAt g.sum n else some 0) with
  | none => none
  | some s =>
    if _h : lvl < 3 then
      (rep n).foldl
        (fun acc i =>
          match acc, readAt g.cs i with
          | some ans, some c =>
            (recC A g (lvl + 1) i (wrap (lo + c.1)) (A.add hi c.2)).map fun r => max ans r
          | _, _ => none)
        (some (check g lo (A.add hi s)))
    else some (check g lo (A.add hi s))
termination_by (3 - lvl).toNat
decreasing_by omega

/-- One iteration of the first loop of `work` with the write `*(ce++) = ...`
checked. -/
def readStepC (A : DoubleArith) (s : ReadState) (b : ℤ × ℤ) : Option ReadState :=
  (writeAt s.cs s.ce (item A b)).map fun cs =>
    { cs := cs, ce := s.ce + 1, have_ := wrap (s.have_ + wrap (2 * wrap (b.1 + b.2))) }

/-- The first loop of `work` with checked writes. -/
def readLoopC (A : DoubleArith) (cs : ℤ → Item) (boxes : List (ℤ × ℤ)) : Option ReadState :=
  boxes.foldl (fun acc b => acc.bind fun s => readStepC A s b)
    (some { cs := cs, ce := 0, have_ := 0 })

/-- The call `sort(cs, ce)`, which accesses the cells `cs[0 .. ce)`: the range
has to lie inside the buffer. -/
def sortRangeC (cs : ℤ → Item) (ce : ℤ) : Option (ℤ → Item) :=
  if 0 ≤ ce ∧ ce ≤ N then some (sortRange cs ce) else none

/-- The prefix-sum loop with the reads of `sum[i]` and `cs[i]` and the write of
`sum[i + 1]` checked. -/
def sumLoopC (A : DoubleArith) (cs : ℤ → Item) (sum : ℤ → ℚ) (n : ℤ) : Option (ℤ → ℚ) :=
  (rep n).foldl
    (fun acc i =>
      acc.bind fun s =>
        (readAt s i).bind fun si =>
          (readAt cs i).bind fun c => writeAt s (i + 1) (A.add si c.2))
    (some sum)

/-- The function `work` with checked accesses. -/
def workC (A : DoubleArith) (g : Globals) (inp : Input) : Option (ℚ × Globals) :=
  (readLoopC A g.cs inp.boxes).bind fun r =>
    (sortRangeC r.cs r.ce).bind fun cs₁ =>
      (sumLoopC A cs₁ g.sum inp.n).bind fun sum₁ =>
        (recC A { cs := cs₁, p := inp.p, sum := sum₁ } 0 inp.n r.have_ (r.have_ : ℚ)).map
          fun ans => (ans, { cs := cs₁, p := inp.p, sum := sum₁ })

/-! ## 32-bit arithmetic -/

theorem wrap_eq_self {x : ℤ} (h0 : -2147483648 ≤ x) (h1 : x ≤ 2147483647) : wrap x = x := by
  unfold wrap
  omega

theorem wrap_ge (x : ℤ) : -2147483648 ≤ wrap x := by
  unfold wrap
  omega

theorem wrap_le (x : ℤ) : wrap x ≤ 2147483647 := by
  unfold wrap
  omega

theorem wrap_step (a w h : ℤ) :
    wrap (wrap a + wrap (2 * wrap (w + h))) = wrap (a + 2 * (w + h)) := by
  unfold wrap
  omega

theorem perimeterSum_nonneg (boxes : List (ℤ × ℤ)) (hnn : NonNegBoxes boxes) :
    0 ≤ perimeterSum boxes := by
  unfold perimeterSum
  apply List.sum_nonneg
  intro x hx
  obtain ⟨b, hb, rfl⟩ := List.mem_map.1 hx
  have := hnn b hb
  omega

theorem foldl_have_wrap (boxes : List (ℤ × ℤ)) (a : ℤ) :
    boxes.foldl (fun hv b => wrap (hv + wrap (2 * wrap (b.1 + b.2)))) (wrap a) =
      wrap (a + perimeterSum boxes) := by
  induction boxes generalizing a with
  | nil => simp [perimeterSum]
  | cons b t ih =>
    simp only [List.foldl_cons]
    rw [wrap_step, ih]
    simp only [perimeterSum, List.map_cons, List.sum_cons]
    congr 1
    ring

/-- The program's `have` is the total of the specification modulo 2^32. -/
theorem haveOf_eq_wrap (boxes : List (ℤ × ℤ)) : haveOf boxes = wrap (perimeterSum boxes) := by
  have h := foldl_have_wrap boxes 0
  have h0 : wrap 0 = 0 := by decide
  rw [h0, zero_add] at h
  exact h

/-- Without overflow the program's `have` is the total of the specification. -/
theorem haveOf_eq (boxes : List (ℤ × ℤ)) (hnn : NonNegBoxes boxes)
    (hfit : perimeterSum boxes ≤ 2147483647) : haveOf boxes = perimeterSum boxes := by
  rw [haveOf_eq_wrap]
  exact wrap_eq_self (by have := perimeterSum_nonneg boxes hnn; omega) hfit

theorem maxCost_nonneg (boxes : List (ℤ × ℤ)) : 0 ≤ maxCost boxes := by
  unfold maxCost
  induction boxes with
  | nil => simp
  | cons b t ih => simp only [List.map_cons, List.foldr_cons]; exact le_max_of_le_right ih

theorem le_maxCost (boxes : List (ℤ × ℤ)) (b : ℤ × ℤ) (hb : b ∈ boxes) :
    2 * min b.1 b.2 ≤ maxCost boxes := by
  unfold maxCost
  induction boxes with
  | nil => simp at hb
  | cons c t ih =>
    simp only [List.map_cons, List.foldr_cons]
    rcases List.mem_cons.1 hb with rfl | h
    · exact le_max_left _ _
    · exact le_max_of_le_right (ih h)

/-! ## Lemmas on the loop of `rec` -/

theorem mem_rep {n i : ℤ} : i ∈ rep n ↔ 0 ≤ i ∧ i < n := by
  unfold rep
  simp only [List.mem_map, List.mem_range]
  constructor
  · rintro ⟨k, hk, rfl⟩
    constructor
    · exact Int.ofNat_nonneg k
    · have : ((k : ℕ) : ℤ) < ((n.toNat : ℕ) : ℤ) := by exact_mod_cast hk
      have h2 : ((n.toNat : ℕ) : ℤ) ≤ max n 0 := by simp [Int.toNat_eq_max]
      change (k : ℤ) < n
      rcases le_total n 0 with h0 | h0
      · have : n.toNat = 0 := Int.toNat_eq_zero.2 h0
        omega
      · omega
  · rintro ⟨h0, h1⟩
    refine ⟨i.toNat, ?_, ?_⟩
    · omega
    · change ((i.toNat : ℕ) : ℤ) = i
      omega

theorem foldl_max_ge_init {ι : Type} (f : ι → ℚ) (l : List ι) (a : ℚ) :
    a ≤ l.foldl (fun x i => max x (f i)) a := by
  induction l generalizing a with
  | nil => simp
  | cons b t ih => exact le_trans (le_max_left _ _) (ih _)

theorem foldl_max_ge_mem {ι : Type} (f : ι → ℚ) (l : List ι) (a : ℚ) {i : ι} (hi : i ∈ l) :
    f i ≤ l.foldl (fun x i => max x (f i)) a := by
  induction l generalizing a with
  | nil => simp at hi
  | cons b t ih =>
    rcases List.mem_cons.1 hi with rfl | h
    · exact le_trans (le_max_right _ _) (foldl_max_ge_init f t _)
    · exact ih _ h

theorem foldl_max_attained {ι : Type} (f : ι → ℚ) (l : List ι) (a : ℚ) :
    l.foldl (fun x i => max x (f i)) a = a ∨
      ∃ i ∈ l, l.foldl (fun x i => max x (f i)) a = f i := by
  induction l generalizing a with
  | nil => simp
  | cons b t ih =>
    rcases ih (max a (f b)) with h | ⟨i, hi, h⟩
    · rcases max_choice a (f b) with h2 | h2
      · left; simp only [List.foldl_cons]; rw [h, h2]
      · right; exact ⟨b, List.mem_cons_self _ _, by simp only [List.foldl_cons]; rw [h, h2]⟩
    · right; exact ⟨i, List.mem_cons_of_mem _ hi, by simpa using h⟩

theorem foldl_max_le {ι : Type} (f : ι → ℚ) (l : List ι) (a b : ℚ) (ha : a ≤ b)
    (hf : ∀ i ∈ l, f i ≤ b) : l.foldl (fun x i => max x (f i)) a ≤ b := by
  rcases foldl_max_attained f l a with h | ⟨i, hi, h⟩
  · rw [h]; exact ha
  · rw [h]; exact hf i hi

/-- A call of `rec` at level 3 or above only checks. -/
theorem rec_of_ge (A : DoubleArith) (g : Globals) {lvl : ℤ} (h : 3 ≤ lvl) (n lo : ℤ) (hi : ℚ) :
    rec A g lvl n lo hi = check g lo (A.add hi (if lvl = 3 then g.sum n else 0)) := by
  rw [rec]
  simp only [not_lt.2 h, dite_false]

/-- A call of `rec` below level 3 checks `(lo, hi)` and loops over `i < n`. -/
theorem rec_of_lt (A : DoubleArith) (g : Globals) {lvl : ℤ} (h : lvl < 3) (n lo : ℤ) (hi : ℚ) :
    rec A g lvl n lo hi =
      (rep n).foldl
        (fun ans i => max ans (rec A g (lvl + 1) i (wrap (lo + (g.cs i).1)) (A.add hi (g.cs i).2)))
        (check g lo hi) := by
  rw [rec]
  have h3 : lvl ≠ 3 := by omega
  simp only [h, dite_true, h3, if_false, A.add_zero]

/-- The greatest element of the values a loop of `rec` compares. -/
theorem isGreatest_loop (f : ℤ → ℚ) (Q : ℤ → ℚ → Prop) (n : ℤ) (a : ℚ)
    (hQ : ∀ i, 0 ≤ i → i < n → IsGreatest {v | Q i v} (f i)) :
    IsGreatest {v | v = a ∨ ∃ i, 0 ≤ i ∧ i < n ∧ Q i v}
      ((rep n).foldl (fun x i => max x (f i)) a) := by
  constructor
  · rcases foldl_max_attained f (rep n) a with h | ⟨i, hi, h⟩
    · left; exact h
    · right
      obtain ⟨h0, h1⟩ := mem_rep.1 hi
      exact ⟨i, h0, h1, by rw [h]; exact (hQ i h0 h1).1⟩
  · rintro v (rfl | ⟨i, h0, h1, hv⟩)
    · exact foldl_max_ge_init f _ _
    · exact le_trans ((hQ i h0 h1).2 hv) (foldl_max_ge_mem f _ _ (mem_rep.2 ⟨h0, h1⟩))

/-- Level 3: the only value is the check with `sum[n]` added. -/
theorem rec_three (A : DoubleArith) (g : Globals) (n lo : ℤ) (hi : ℚ) :
    rec A g 3 n lo hi = check g lo (A.add hi (g.sum n)) := by
  rw [rec_of_ge A g (le_refl 3)]
  simp

/-- Level 2: the check of the call and the checks after one more item. -/
theorem rec_two (A : DoubleArith) (g : Globals) (n lo : ℤ) (hi : ℚ) :
    IsGreatest
      {v | v = check g lo hi ∨ ∃ k, 0 ≤ k ∧ k < n ∧
        v = check g (wrap (lo + (g.cs k).1)) (A.add (A.add hi (g.cs k).2) (g.sum k))}
      (rec A g 2 n lo hi) := by
  rw [rec_of_lt A g (by norm_num : (2 : ℤ) < 3)]
  refine isGreatest_loop _ (fun k v =>
    v = check g (wrap (lo + (g.cs k).1)) (A.add (A.add hi (g.cs k).2) (g.sum k))) n _ ?_
  intro k _ _
  have h : (2 : ℤ) + 1 = 3 := by norm_num
  rw [h, rec_three]
  exact ⟨rfl, fun v hv => le_of_eq hv⟩

/-- Level 1: the check of the call and the values of the level-2 calls. -/
theorem rec_one (A : DoubleArith) (g : Globals) (n lo : ℤ) (hi : ℚ) :
    IsGreatest
      {v | v = check g lo hi ∨ ∃ j, 0 ≤ j ∧ j < n ∧
        (v = check g (wrap (lo + (g.cs j).1)) (A.add hi (g.cs j).2) ∨ ∃ k, 0 ≤ k ∧ k < j ∧
          v = check g (wrap (wrap (lo + (g.cs j).1) + (g.cs k).1))
            (A.add (A.add (A.add hi (g.cs j).2) (g.cs k).2) (g.sum k)))}
      (rec A g 1 n lo hi) := by
  rw [rec_of_lt A g (by norm_num : (1 : ℤ) < 3)]
  refine isGreatest_loop _ (fun j v =>
    v = check g (wrap (lo + (g.cs j).1)) (A.add hi (g.cs j).2) ∨ ∃ k, 0 ≤ k ∧ k < j ∧
      v = check g (wrap (wrap (lo + (g.cs j).1) + (g.cs k).1))
        (A.add (A.add (A.add hi (g.cs j).2) (g.cs k).2) (g.sum k))) n _ ?_
  intro j _ _
  have h : (1 : ℤ) + 1 = 2 := by norm_num
  rw [h]
  exact rec_two A g j _ _

/-- Level 0: the root call returns the greatest of the path checks. -/
theorem rec_zero (A : DoubleArith) (g : Globals) (n lo : ℤ) (hi : ℚ) :
    IsGreatest {v | IsPathCheck A g n lo hi v} (rec A g 0 n lo hi) := by
  have key : IsGreatest
      {v | v = check g lo hi ∨ ∃ i, 0 ≤ i ∧ i < n ∧
        (v = check g (wrap (lo + (g.cs i).1)) (A.add hi (g.cs i).2) ∨ ∃ j, 0 ≤ j ∧ j < i ∧
          (v = check g (wrap (wrap (lo + (g.cs i).1) + (g.cs j).1))
              (A.add (A.add hi (g.cs i).2) (g.cs j).2) ∨
            ∃ k, 0 ≤ k ∧ k < j ∧
              v = check g (wrap (wrap (wrap (lo + (g.cs i).1) + (g.cs j).1) + (g.cs k).1))
                (A.add (A.add (A.add (A.add hi (g.cs i).2) (g.cs j).2) (g.cs k).2)
                  (g.sum k))))}
      (rec A g 0 n lo hi) := by
    rw [rec_of_lt A g (by norm_num : (0 : ℤ) < 3)]
    refine isGreatest_loop _ (fun i v =>
      v = check g (wrap (lo + (g.cs i).1)) (A.add hi (g.cs i).2) ∨ ∃ j, 0 ≤ j ∧ j < i ∧
        (v = check g (wrap (wrap (lo + (g.cs i).1) + (g.cs j).1))
            (A.add (A.add hi (g.cs i).2) (g.cs j).2) ∨
          ∃ k, 0 ≤ k ∧ k < j ∧
            v = check g (wrap (wrap (wrap (lo + (g.cs i).1) + (g.cs j).1) + (g.cs k).1))
              (A.add (A.add (A.add (A.add hi (g.cs i).2) (g.cs j).2) (g.cs k).2)
                (g.sum k)))) n _ ?_
    intro i _ _
    have h : (0 : ℤ) + 1 = 1 := by norm_num
    rw [h]
    exact rec_one A g i _ _
  have hset : {v | IsPathCheck A g n lo hi v} =
      {v | v = check g lo hi ∨ ∃ i, 0 ≤ i ∧ i < n ∧
        (v = check g (wrap (lo + (g.cs i).1)) (A.add hi (g.cs i).2) ∨ ∃ j, 0 ≤ j ∧ j < i ∧
          (v = check g (wrap (wrap (lo + (g.cs i).1) + (g.cs j).1))
              (A.add (A.add hi (g.cs i).2) (g.cs j).2) ∨
            ∃ k, 0 ≤ k ∧ k < j ∧
              v = check g (wrap (wrap (wrap (lo + (g.cs i).1) + (g.cs j).1) + (g.cs k).1))
                (A.add (A.add (A.add (A.add hi (g.cs i).2) (g.cs j).2) (g.cs k).2)
                  (g.sum k))))} := by
    ext v
    simp only [Set.mem_setOf_eq, IsPathCheck]
    constructor
    · rintro (h | ⟨i, h0, h1, h⟩ | ⟨i, j, h0, h1, h2, h⟩ | ⟨i, j, k, h0, h1, h2, h3, h⟩)
      · exact Or.inl h
      · exact Or.inr ⟨i, h0, h1, Or.inl h⟩
      · exact Or.inr ⟨i, by omega, h2, Or.inr ⟨j, h0, h1, Or.inl h⟩⟩
      · exact Or.inr ⟨i, by omega, h3, Or.inr ⟨j, by omega, h2, Or.inr ⟨k, h0, h1, h⟩⟩⟩
    · rintro (h | ⟨i, h0, h1, h | ⟨j, h2, h3, h | ⟨k, h4, h5, h⟩⟩⟩)
      · exact Or.inl h
      · exact Or.inr (Or.inl ⟨i, h0, h1, h⟩)
      · exact Or.inr (Or.inr (Or.inl ⟨i, j, h2, h3, h1, h⟩))
      · exact Or.inr (Or.inr (Or.inr ⟨i, j, k, h4, h5, h3, h1, h⟩))
  rw [hset]
  exact key

/-- C1. With `lo <= hi`, `check(lo, hi)` returns `hi` when `hi <= p`, returns `p`
when `lo <= p < hi`, and returns `-1` when `p < lo`; one of the three cases
holds, and no two of them hold together. -/
theorem check_three_cases (g : Globals) (lo : ℤ) (hi : ℚ) (h : (lo : ℚ) ≤ hi) :
    (hi ≤ (g.p : ℚ) → check g lo hi = hi) ∧
    (lo ≤ g.p ∧ (g.p : ℚ) < hi → check g lo hi = (g.p : ℚ)) ∧
    (g.p < lo → check g lo hi = -1) ∧
    (hi ≤ (g.p : ℚ) ∨ (lo ≤ g.p ∧ (g.p : ℚ) < hi) ∨ g.p < lo) ∧
    ¬ (hi ≤ (g.p : ℚ) ∧ (lo ≤ g.p ∧ (g.p : ℚ) < hi)) ∧
    ¬ (hi ≤ (g.p : ℚ) ∧ g.p < lo) ∧
    ¬ ((lo ≤ g.p ∧ (g.p : ℚ) < hi) ∧ g.p < lo) := by
  have cast_lt : g.p < lo → (g.p : ℚ) < hi := fun hlt =>
    lt_of_lt_of_le (by exact_mod_cast hlt) h
  refine ⟨?_, ?_, ?_, ?_, ?_, ?_, ?_⟩
  · intro h1
    simp [check, h1]
  · rintro ⟨h1, h2⟩
    simp [check, not_le.2 h2, h1, h2]
  · intro h1
    have h2 := cast_lt h1
    simp [check, not_le.2 h2, not_le.2 h1]
  · rcases le_or_lt hi (g.p : ℚ) with h1 | h1
    · exact Or.inl h1
    · rcases le_or_lt lo g.p with h2 | h2
      · exact Or.inr (Or.inl ⟨h2, h1⟩)
      · exact Or.inr (Or.inr h2)
  · rintro ⟨h1, -, h2⟩
    exact absurd h1 (not_le.2 h2)
  · rintro ⟨h1, h2⟩
    exact absurd h1 (not_le.2 (cast_lt h2))
  · rintro ⟨⟨h1, -⟩, h2⟩
    omega

/-- Witness of C1 at `p = 10`, `lo = 6`, `hi = 24`: the middle case. -/
theorem check_three_cases_witness :
    ((6 : ℤ) : ℚ) ≤ 24 ∧ check { zeroGlobals with p := 10 } 6 24 = 10 :=
  ⟨by norm_num,
   by
    have h := (check_three_cases { zeroGlobals with p := 10 } 6 24 (by norm_num)).2.1
    simpa using h (by norm_num)⟩

theorem rep_zero : rep 0 = [] := rfl

theorem rep_one : rep 1 = [0] := rfl

/-- The call `rec(0, 1, 5, -3)` with cap `p = 0`, the item `(0, 10)` in every
cell of `cs` and all prefix sums zero. -/
theorem rec_example_value :
    rec exactArith { cs := fun _ => (0, 10), p := 0, sum := fun _ => 0 } 0 1 5 (-3) = -1 := by
  rw [rec_of_lt _ _ (by norm_num : (0 : ℤ) < 3), rep_one]
  simp only [List.foldl_cons, List.foldl_nil]
  rw [rec_of_lt _ _ (by norm_num : (0 : ℤ) + 1 < 3), rep_zero]
  norm_num [check, exactArith, wrap]

/-- C2, counterexample: with `p = 0`, `n = 1`, `lo = 5`, `hi = -3` and
`cs[0] = (0, 10)` the root check is `check(5, -3) = -3` and the only other one
is `check(5, 7) = -1`, so `rec` returns `-1` although not every check does. -/
theorem rec_neg_one_not_all_checks :
    ¬ (rec exactArith { cs := fun _ => (0, 10), p := 0, sum := fun _ => 0 } 0 1 5 (-3) = -1 ↔
        ∀ v, IsPathCheck exactArith { cs := fun _ => (0, 10), p := 0, sum := fun _ => 0 }
          1 5 (-3) v → v = -1) := by
  intro h
  have h1 := h.1 rec_example_value _ (Or.inl rfl)
  norm_num [check] at h1

/-- C2 (amended). The root call `rec(0, n, lo, hi)` returns the greatest of the
path checks: it is one of them and no path check exceeds it.  It returns `-1`
when every path check is `-1`; and when no path check is below `-1`, it
returns `-1` only if every path check is `-1`. -/
theorem rec_greatest_path_check (A : DoubleArith) (g : Globals) (n lo : ℤ) (hi : ℚ) :
    IsGreatest {v | IsPathCheck A g n lo hi v} (rec A g 0 n lo hi) ∧
    ((∀ v, IsPathCheck A g n lo hi v → v = -1) → rec A g 0 n lo hi = -1) ∧
    ((∀ v, IsPathCheck A g n lo hi v → -1 ≤ v) → rec A g 0 n lo hi = -1 →
      ∀ v, IsPathCheck A g n lo hi v → v = -1) := by
  have hg := rec_zero A g n lo hi
  refine ⟨hg, fun hall => hall _ hg.1, fun hge hrec v hv => ?_⟩
  exact le_antisymm (hrec ▸ hg.2 hv) (hge v hv)

/-- Witness of C2 (amended): with `p = 0`, `n = 1`, `lo = 5`, `hi = 7` and
`cs[0] = (0, 10)` both path checks are `-1`, and so is the result. -/
theorem rec_greatest_path_check_witness :
    (∀ v, IsPathCheck exactArith { cs := fun _ => (0, 10), p := 0, sum := fun _ => 0 }
        1 5 7 v → v = -1) ∧
    rec exactArith { cs := fun _ => (0, 10), p := 0, sum := fun _ => 0 } 0 1 5 7 = -1 := by
  have hall : ∀ v, IsPathCheck exactArith
      { cs := fun _ => (0, 10), p := 0, sum := fun _ => 0 } 1 5 7 v → v = -1 := by
    rintro v (h | ⟨i, _, _, h⟩ | ⟨i, j, _, _, _, h⟩ | ⟨i, j, k, _, _, _, _, h⟩)
    · rw [h]; norm_num [check]
    · rw [h]; norm_num [check, exactArith, wrap]
    · omega
    · omega
  exact ⟨hall, (rec_greatest_path_check _ _ 1 5 7).2.1 hall⟩

/-! ## Bounds on the result of `check` and of `rec` -/

theorem check_le_cap (g : Globals) (hp : -1 ≤ g.p) (lo : ℤ) (hi : ℚ) :
    check g lo hi ≤ (g.p : ℚ) := by
  have hq : (-1 : ℚ) ≤ (g.p : ℚ) := by exact_mod_cast hp
  unfold check
  split_ifs with h1 h2
  · exact h1
  · exact le_refl _
  · exact hq

theorem isPathCheck_le_cap (A : DoubleArith) (g : Globals) (hp : -1 ≤ g.p) (n lo : ℤ)
    (hi v : ℚ) (hv : IsPathCheck A g n lo hi v) : v ≤ (g.p : ℚ) := by
  rcases hv with h | ⟨i, _, _, h⟩ | ⟨i, j, _, _, _, h⟩ | ⟨i, j, k, _, _, _, _, h⟩ <;>
    · rw [h]; exact check_le_cap g hp _ _

theorem rec_le_cap (A : DoubleArith) (g : Globals) (hp : -1 ≤ g.p) (n lo : ℤ) (hi : ℚ) :
    rec A g 0 n lo hi ≤ (g.p : ℚ) :=
  isPathCheck_le_cap A g hp n lo hi _ (rec_zero A g n lo hi).1

theorem root_check_le_rec (A : DoubleArith) (g : Globals) (n lo : ℤ) (hi : ℚ) :
    check g lo hi ≤ rec A g 0 n lo hi :=
  (rec_zero A g n lo hi).2 (Or.inl rfl)

/-! ## The first loop of `work` -/

theorem foldl_readStep (A : DoubleArith) (boxes : List (ℤ × ℤ)) (s : ReadState) :
    (boxes.foldl (readStep A) s).have_ =
      boxes.foldl (fun hv b => wrap (hv + wrap (2 * wrap (b.1 + b.2)))) s.have_ ∧
    (boxes.foldl (readStep A) s).ce = s.ce + (boxes.length : ℤ) ∧
    (∀ k : ℕ, k < boxes.length →
      (boxes.foldl (readStep A) s).cs (s.ce + (k : ℤ)) = (boxes.map (item A)).getD k (0, 0)) ∧
    (∀ i : ℤ, i < s.ce ∨ s.ce + (boxes.length : ℤ) ≤ i →
      (boxes.foldl (readStep A) s).cs i = s.cs i) := by
  induction boxes generalizing s with
  | nil => simp
  | cons b t ih =>
    obtain ⟨h1, h2, h3, h4⟩ := ih (readStep A s b)
    simp only [List.foldl_cons]
    refine ⟨?_, ?_, ?_, ?_⟩
    · rw [h1]
      rfl
    · rw [h2]
      simp only [readStep, List.length_cons]
      push_cast
      ring
    · intro k hk
      cases k with
      | zero =>
        rw [h4 _ (Or.inl (by simp [readStep]))]
        simp [readStep]
      | succ m =>
        have hm : m < t.length := by simpa using hk
        have := h3 m hm
        have he : s.ce + ((m + 1 : ℕ) : ℤ) = (readStep A s b).ce + (m : ℤ) := by
          simp only [readStep]
          push_cast
          ring
        rw [he, this]
        simp
    · intro i hi
      have hi2 : i < (readStep A s b).ce ∨
          (readStep A s b).ce + (t.length : ℤ) ≤ i → i ≠ s.ce := by
        intro _
        simp only [List.length_cons] at hi
        push_cast at hi
        rcases hi with h | h <;> omega
      by_cases hlt : i < s.ce
      · rw [h4 i (Or.inl (by simp only [readStep]; omega))]
        simp only [readStep]
        rw [Function.update_noteq (by omega)]
      · have hge : s.ce + ((b :: t).length : ℤ) ≤ i := by
          rcases hi with h | h
          · exact absurd h hlt
          · exact h
        simp only [List.length_cons] at hge
        push_cast at hge
        rw [h4 i (Or.inr (by simp only [readStep]; omega))]
        simp only [readStep]
        rw [Function.update_noteq (by omega)]

theorem readLoop_have (A : DoubleArith) (cs : ℤ → Item) (boxes : List (ℤ × ℤ)) :
    (readLoop A cs boxes).have_ = haveOf boxes := by
  have h := (foldl_readStep A boxes { cs := cs, ce := 0, have_ := 0 }).1
  simpa [readLoop, haveOf] using h

theorem readLoop_ce (A : DoubleArith) (cs : ℤ → Item) (boxes : List (ℤ × ℤ)) :
    (readLoop A cs boxes).ce = (boxes.length : ℤ) := by
  have h := (foldl_readStep A boxes { cs := cs, ce := 0, have_ := 0 }).2.1
  simpa [readLoop] using h

theorem readLoop_cs (A : DoubleArith) (cs : ℤ → Item) (boxes : List (ℤ × ℤ)) (k : ℕ)
    (hk : k < boxes.length) :
    (readLoop A cs boxes).cs (k : ℤ) = (boxes.map (item A)).getD k (0, 0) := by
  have h := (foldl_readStep A boxes { cs := cs, ce := 0, have_ := 0 }).2.2.1 k hk
  simpa [readLoop] using h

/-! ## Cells of a buffer -/

theorem rep_natCast (m : ℕ) : rep (m : ℤ) = (List.range m).map Int.ofNat := by
  simp [rep]

theorem rep_succ (m : ℕ) : rep ((m : ℤ) + 1) = rep (m : ℤ) ++ [(m : ℤ)] := by
  have h : ((m : ℤ) + 1) = ((m + 1 : ℕ) : ℤ) := by push_cast; rfl
  rw [h, rep_natCast, rep_natCast, List.range_succ]
  simp

theorem length_cells {α : Type} (buf : ℤ → α) (m : ℕ) : (cells buf (m : ℤ)).length = m := by
  simp [cells, rep_natCast]

theorem cells_succ {α : Type} (buf : ℤ → α) (m : ℕ) :
    cells buf ((m : ℤ) + 1) = cells buf (m : ℤ) ++ [buf (m : ℤ)] := by
  simp [cells, rep_succ]

theorem getD_cells {α : Type} (buf : ℤ → α) (m k : ℕ) (hk : k < m) (d : α) :
    (cells buf (m : ℤ)).getD k d = buf (k : ℤ) := by
  simp [cells, rep_natCast, List.getD_eq_getElem?_getD, List.getElem?_map,
    List.getElem?_range hk]

theorem cells_congr {α : Type} (buf buf' : ℤ → α) (n : ℤ)
    (h : ∀ i, 0 ≤ i → i < n → buf i = buf' i) : cells buf n = cells buf' n := by
  unfold cells
  apply List.map_congr_left
  intro i hi
  obtain ⟨h0, h1⟩ := mem_rep.1 hi
  exact h i h0 h1

theorem cells_eq_of_getD {α : Type} (buf : ℤ → α) (l : List α) (d : α)
    (h : ∀ k : ℕ, k < l.length → buf (k : ℤ) = l.getD k d) :
    cells buf (l.length : ℤ) = l := by
  apply List.ext_getElem
  · exact length_cells buf l.length
  · intro k h1 h2
    have hc := getD_cells buf l.length k h2 d
    rw [List.getD_eq_getElem _ _ h1] at hc
    rw [hc, h k h2, List.getD_eq_getElem _ _ h2]

theorem cells_readLoop (A : DoubleArith) (cs : ℤ → Item) (boxes : List (ℤ × ℤ)) :
    cells (readLoop A cs boxes).cs (boxes.length : ℤ) = boxes.map (item A) := by
  have h := cells_eq_of_getD (readLoop A cs boxes).cs (boxes.map (item A)) (0, 0)
    (fun k hk => readLoop_cs A cs boxes k (by simpa using hk))
  simpa using h

/-! ## The call `sort(cs, ce)` -/

theorem pairLe_iff (a b : Item) : pairLe a b ↔ a.1 < b.1 ∨ (a.1 = b.1 ∧ a.2 ≤ b.2) := by
  unfold pairLe pairLt
  push_neg
  constructor
  · rintro ⟨h1, h2⟩
    rcases lt_or_eq_of_le h1 with h | h
    · exact Or.inl h
    · exact Or.inr ⟨h, h2 (le_of_eq h.symm)⟩
  · rintro (h | ⟨h, h'⟩)
    · exact ⟨le_of_lt h, fun hba => absurd h (not_lt.2 hba)⟩
    · exact ⟨le_of_eq h, fun _ => h'⟩

theorem sortRange_apply (cs : ℤ → Item) (m k : ℕ) (hk : k < m) (d : Item) :
    sortRange cs (m : ℤ) (k : ℤ) = ((cells cs (m : ℤ)).insertionSort pairLe).getD k d := by
  have hlen : ((cells cs (m : ℤ)).insertionSort pairLe).length = m := by
    rw [List.length_insertionSort, length_cells]
  have h : (0 : ℤ) ≤ (k : ℤ) ∧ (k : ℤ) < (m : ℤ) := ⟨by omega, by omega⟩
  simp only [sortRange, h, and_self, if_true, Int.toNat_ofNat]
  rw [List.getD_eq_getElem _ _ (by omega), List.getD_eq_getElem _ _ (by omega)]

theorem cells_sortRange (cs : ℤ → Item) (m : ℕ) :
    cells (sortRange cs (m : ℤ)) (m : ℤ) = (cells cs (m : ℤ)).insertionSort pairLe := by
  have hlen : ((cells cs (m : ℤ)).insertionSort pairLe).length = m := by
    rw [List.length_insertionSort, length_cells]
  have h := cells_eq_of_getD (sortRange cs (m : ℤ)) ((cells cs (m : ℤ)).insertionSort pairLe)
    (0, 0) (fun k hk => sortRange_apply cs m k (by omega) (0, 0))
  rw [hlen] at h
  exact h

/-- After the sort step the first `n` cells hold the sorted list of the items. -/
theorem cells_workSort (A : DoubleArith) (g : Globals) (inp : Input) :
    cells (workSort A g inp).cs inp.n = (inp.boxes.map (item A)).insertionSort pairLe := by
  simp only [workSort, Input.n, readLoop_ce]
  rw [cells_sortRange, cells_readLoop]

theorem workSort_cs (A : DoubleArith) (g : Globals) (inp : Input) (k : ℕ)
    (hk : k < inp.boxes.length) :
    (workSort A g inp).cs (k : ℤ) =
      ((inp.boxes.map (item A)).insertionSort pairLe).getD k (0, 0) := by
  rw [← cells_workSort A g inp, Input.n, getD_cells _ _ _ hk]

/-! ## The prefix-sum loop -/

theorem sumLoop_zero (A : DoubleArith) (cs : ℤ → Item) (sum : ℤ → ℚ) :
    sumLoop A cs sum 0 = sum := by
  simp [sumLoop, rep_zero]

theorem sumLoop_succ (A : DoubleArith) (cs : ℤ → Item) (sum : ℤ → ℚ) (m : ℕ) :
    sumLoop A cs sum ((m : ℤ) + 1) =
      Function.update (sumLoop A cs sum (m : ℤ)) ((m : ℤ) + 1)
        (A.add (sumLoop A cs sum (m : ℤ) (m : ℤ)) (cs (m : ℤ)).2) := by
  simp [sumLoop, rep_succ, List.foldl_append]

theorem sumLoop_spec (A : DoubleArith) (cs : ℤ → Item) (sum : ℤ → ℚ) (m : ℕ) :
    (∀ i : ℕ, i ≤ m →
      sumLoop A cs sum (m : ℤ) (i : ℤ) =
        ((cells cs (i : ℤ)).map Prod.snd).foldl A.add (sum 0)) ∧
    (∀ i : ℤ, i ≤ 0 ∨ (m : ℤ) < i → sumLoop A cs sum (m : ℤ) i = sum i) := by
  induction m with
  | zero =>
    constructor
    · intro i hi
      have : i = 0 := by omega
      subst this
      simp [sumLoop_zero, cells, rep_zero]
    · intro i _
      simp [sumLoop_zero]
  | succ m ih =>
    obtain ⟨ih1, ih2⟩ := ih
    have hcast : ((m + 1 : ℕ) : ℤ) = (m : ℤ) + 1 := by push_cast; rfl
    rw [hcast, sumLoop_succ]
    constructor
    · intro i hi
      rcases Nat.lt_or_ge i (m + 1) with hlt | hge
      · rw [Function.update_noteq (by omega)]
        exact ih1 i (by omega)
      · have : i = m + 1 := by omega
        subst this
        rw [hcast, Function.update_same, ih1 m (le_refl m), cells_succ]
        simp [List.foldl_append]
    · intro i hi
      rw [Function.update_noteq (by omega)]
      exact ih2 i (by omega)

/-- The prefix sums left by `work`, for an arbitrary initial `sum[0]`. -/
theorem workSums_sum (A : DoubleArith) (g : Globals) (inp : Input) (i : ℕ)
    (hi : i ≤ inp.boxes.length) :
    (workSums A g inp).sum (i : ℤ) =
      ((cells (workSums A g inp).cs (i : ℤ)).map Prod.snd).foldl A.add (g.sum 0) := by
  have h := (sumLoop_spec A (workSort A g inp).cs (workSort A g inp).sum inp.boxes.length).1 i hi
  simpa [workSums, Input.n, workSort] using h

theorem workSums_cs (A : DoubleArith) (g : Globals) (inp : Input) :
    (workSums A g inp).cs = (workSort A g inp).cs := rfl

theorem workSums_p (A : DoubleArith) (g : Globals) (inp : Input) :
    (workSums A g inp).p = inp.p := rfl

theorem workSums_sum_zero (A : DoubleArith) (g : Globals) (inp : Input) :
    (workSums A g inp).sum 0 = g.sum 0 := by
  have h := (sumLoop_spec A (workSort A g inp).cs (workSort A g inp).sum inp.boxes.length).2 0
    (Or.inl (le_refl 0))
  simpa [workSums, Input.n, workSort] using h

theorem foldl_add_eq_sum (l : List ℚ) (a : ℚ) :
    l.foldl (fun x y => x + y) a = a + l.sum := by
  induction l generalizing a with
  | nil => simp
  | cons b t ih => simp [ih, add_assoc]

/-! ## What `rec` reads -/

theorem check_congr (g g' : Globals) (hp : g.p = g'.p) (lo : ℤ) (hi : ℚ) :
    check g lo hi = check g' lo hi := by
  simp [check, hp]

/-- The result of `rec` depends on `p`, on `cs[0 .. n)` and on `sum[0 .. n]` only. -/
theorem rec_congr (A : DoubleArith) (g g' : Globals) (hp : g.p = g'.p) :
    ∀ (k : ℕ) (lvl n lo : ℤ) (hi : ℚ), (3 - lvl).toNat = k → 0 ≤ n →
      (∀ i, 0 ≤ i → i < n → g.cs i = g'.cs i) →
      (∀ i, 0 ≤ i → i ≤ n → g.sum i = g'.sum i) →
      rec A g lvl n lo hi = rec A g' lvl n lo hi := by
  intro k
  induction k with
  | zero =>
    intro lvl n lo hi hk hn _ hsum
    have h3 : 3 ≤ lvl := by omega
    rw [rec_of_ge A g h3, rec_of_ge A g' h3, hsum n hn (le_refl n)]
    exact check_congr g g' hp _ _
  | succ k ih =>
    intro lvl n lo hi hk hn hcs hsum
    have h3 : lvl < 3 := by omega
    rw [rec_of_lt A g h3, rec_of_lt A g' h3, check_congr g g' hp]
    apply List.foldl_ext
    intro a i hi'
    obtain ⟨h0, h1⟩ := mem_rep.1 hi'
    rw [hcs i h0 h1]
    rw [ih (lvl + 1) i _ _ (by omega) h0 (fun j hj0 hj1 => hcs j hj0 (by omega))
      (fun j hj0 hj1 => hsum j hj0 (by omega))]

/-! ## `work` on a test case -/

theorem work_fst (A : DoubleArith) (g : Globals) (inp : Input) :
    (work A g inp).1 =
      rec A (workSums A g inp) 0 inp.n (haveOf inp.boxes) ((haveOf inp.boxes : ℤ) : ℚ) := by
  simp only [work, readLoop_have]

/-- The root call of `work` when the total fits in an `int`. -/
theorem work_fst_fit (A : DoubleArith) (g : Globals) (inp : Input)
    (hnn : NonNegBoxes inp.boxes) (hfit : perimeterSum inp.boxes ≤ 2147483647) :
    (work A g inp).1 =
      rec A (workSums A g inp) 0 inp.n (perimeterSum inp.boxes)
        ((perimeterSum inp.boxes : ℤ) : ℚ) := by
  rw [work_fst, haveOf_eq inp.boxes hnn hfit]

theorem work_le_cap (A : DoubleArith) (g : Globals) (inp : Input) (hp : -1 ≤ inp.p) :
    (work A g inp).1 ≤ (inp.p : ℚ) := by
  rw [work_fst]
  exact rec_le_cap A (workSums A g inp) hp _ _ _

theorem have_le_work (A : DoubleArith) (g : Globals) (inp : Input)
    (hnn : NonNegBoxes inp.boxes) (hfit : perimeterSum inp.boxes ≤ 2147483647)
    (h : perimeterSum inp.boxes ≤ inp.p) :
    ((perimeterSum inp.boxes : ℤ) : ℚ) ≤ (work A g inp).1 := by
  rw [work_fst_fit A g inp hnn hfit]
  have hq : ((perimeterSum inp.boxes : ℤ) : ℚ) ≤ ((workSums A g inp).p : ℚ) := by
    rw [workSums_p]; exact_mod_cast h
  have hc : check (workSums A g inp) (perimeterSum inp.boxes)
      ((perimeterSum inp.boxes : ℤ) : ℚ) = ((perimeterSum inp.boxes : ℤ) : ℚ) := by
    simp [check, hq]
  calc ((perimeterSum inp.boxes : ℤ) : ℚ)
      = check (workSums A g inp) (perimeterSum inp.boxes)
          ((perimeterSum inp.boxes : ℤ) : ℚ) := hc.symm
    _ ≤ _ := root_check_le_rec A _ _ _ _

theorem workSums_cs_single (A : DoubleArith) (g : Globals) (p : ℤ) (b : ℤ × ℤ) :
    (workSums A g ⟨p, [b]⟩).cs 0 = item A b := by
  have h := workSort_cs A g ⟨p, [b]⟩ 0 (by simp)
  simpa [workSums_cs] using h

/-- With a single box, `work` compares the root check with the check after
selecting the box. -/
theorem work_single (A : DoubleArith) (g : Globals) (p : ℤ) (b : ℤ × ℤ) :
    (work A g ⟨p, [b]⟩).1 =
      max (check (workSums A g ⟨p, [b]⟩) (haveOf [b]) ((haveOf [b] : ℤ) : ℚ))
        (check (workSums A g ⟨p, [b]⟩) (wrap (haveOf [b] + (item A b).1))
          (A.add ((haveOf [b] : ℤ) : ℚ) (item A b).2)) := by
  have hcs := workSums_cs_single A g p b
  have hn : (⟨p, [b]⟩ : Input).n = 1 := by simp [Input.n]
  rw [work_fst, hn]
  rw [rec_of_lt _ _ (by norm_num : (0 : ℤ) < 3), rep_one]
  simp only [List.foldl_cons, List.foldl_nil]
  rw [rec_of_lt _ _ (by norm_num : (0 : ℤ) + 1 < 3), rep_zero]
  simp only [List.foldl_nil, hcs]

theorem gridSqrt_sq (K m : ℕ) (hK : 1 ≤ K) : gridSqrt K (m * m) = (m : ℚ) := by
  have hKpos : (0 : ℚ) < (K : ℚ) := by exact_mod_cast hK
  have h : m * m * (K * K) = (m * K) * (m * K) := by ring
  unfold gridSqrt
  rw [h, Nat.sqrt_eq]
  push_cast
  field_simp

/-- In `exactArith` the call `hypot(w, h)` is exact on Pythagorean triples. -/
theorem exactArith_hypot_of_sq (w h r : ℤ) (hr : 0 ≤ r) (hsq : w * w + h * h = r * r) :
    exactArith.hypot w h = (r : ℚ) := by
  have h1 : (w * w + h * h).toNat = r.toNat * r.toNat := by
    rw [hsq]
    have : ((r.toNat * r.toNat : ℕ) : ℤ) = r * r := by
      push_cast
      rw [Int.toNat_of_nonneg hr]
    omega
  have h2 : ((r.toNat : ℕ) : ℚ) = (r : ℚ) := by
    have : ((r.toNat : ℕ) : ℤ) = r := Int.toNat_of_nonneg hr
    exact_mod_cast this
  show gridSqrt (2 ^ 60) (w * w + h * h).toNat = (r : ℚ)
  rw [h1, gridSqrt_sq _ _ Nat.one_le_two_pow, h2]

theorem exactArith_hypot_3_4 : exactArith.hypot 3 4 = 5 := by
  have h := exactArith_hypot_of_sq 3 4 5 (by decide) (by decide)
  exact_mod_cast h

/-- The answer for the single box `(3, 4)` in exact arithmetic, by the cap. -/
theorem work_box_3_4 (g : Globals) (p : ℤ) :
    (work exactArith g ⟨p, [(3, 4)]⟩).1 =
      max (check { zeroGlobals with p := p } 14 14) (check { zeroGlobals with p := p } 20 24) := by
  rw [work_single]
  have h1 : (item exactArith (3, 4)) = (6, 10) := by
    simp only [item, exactArith_hypot_3_4]
    norm_num [wrap]
  have h2 : haveOf [(3, 4)] = 14 := by decide
  rw [h1, h2]
  rw [check_congr (workSums exactArith g ⟨p, [(3, 4)]⟩) { zeroGlobals with p := p } rfl,
    check_congr (workSums exactArith g ⟨p, [(3, 4)]⟩) { zeroGlobals with p := p } rfl]
  norm_num [exactArith, wrap]

/-! ## The answer of `work` against `have` and the cap -/

/-- C3, counterexample: for the single box `(3, 4)` and the cap `P = 100` the
total `have` is 14 and `work` returns 24, which exceeds `have`. -/
theorem work_exceeds_have :
    WellFormed ⟨100, [(3, 4)]⟩ ∧
    ((perimeterSum [(3, 4)] : ℤ) : ℚ) < (work exactArith zeroGlobals ⟨100, [(3, 4)]⟩).1 := by
  refine ⟨by decide, ?_⟩
  rw [work_box_3_4]
  norm_num [check, perimeterSum]

/-- C3 (amended). For every well-formed test case the answer of `work` never
exceeds the larger of `have` and the cap `P`; so it never exceeds `have` when
`P <= have`. -/
theorem work_le_max_have_cap (A : DoubleArith) (g : Globals) (inp : Input)
    (hwf : WellFormed inp) :
    (work A g inp).1 ≤ max ((perimeterSum inp.boxes : ℤ) : ℚ) (inp.p : ℚ) ∧
    (inp.p ≤ perimeterSum inp.boxes →
      (work A g inp).1 ≤ ((perimeterSum inp.boxes : ℤ) : ℚ)) := by
  have h := work_le_cap A g inp (by have := hwf.1; omega)
  refine ⟨le_trans h (le_max_right _ _), fun hle => le_trans h ?_⟩
  exact_mod_cast hle

/-- Witness of C3 (amended): the box `(3, 4)` with the cap `P = 10`. -/
theorem work_le_max_have_cap_witness :
    WellFormed ⟨10, [(3, 4)]⟩ ∧
    (work exactArith zeroGlobals ⟨10, [(3, 4)]⟩).1 ≤
      ((perimeterSum [(3, 4)] : ℤ) : ℚ) :=
  ⟨by decide,
   (work_le_max_have_cap exactArith zeroGlobals ⟨10, [(3, 4)]⟩ (by decide)).2 (by decide)⟩

/-- C4, counterexample: for the single box `(3, 4)` and the cap `P = 20` the
total `have` is 14, so `P >= have`, and `work` returns 20, not `have`. -/
theorem work_ne_have :
    WellFormed ⟨20, [(3, 4)]⟩ ∧ perimeterSum [(3, 4)] ≤ 20 ∧
    (work exactArith zeroGlobals ⟨20, [(3, 4)]⟩).1 ≠ ((perimeterSum [(3, 4)] : ℤ) : ℚ) := by
  refine ⟨by decide, by decide, ?_⟩
  rw [work_box_3_4]
  norm_num [check, perimeterSum]

/-- C4 (amended). For every well-formed test case with `P >= have`, the cap
`P` being an `int` (at most 2^31 - 1 = 2147483647), the answer `a` of `work`
satisfies `have <= a <= P`; so it equals `have` when `P = have`. -/
theorem work_between_have_and_cap (A : DoubleArith) (g : Globals) (inp : Input)
    (hwf : WellFormed inp) (hint : inp.p ≤ 2147483647)
    (hP : perimeterSum inp.boxes ≤ inp.p) :
    ((perimeterSum inp.boxes : ℤ) : ℚ) ≤ (work A g inp).1 ∧
    (work A g inp).1 ≤ (inp.p : ℚ) ∧
    (inp.p = perimeterSum inp.boxes →
      (work A g inp).1 = ((perimeterSum inp.boxes : ℤ) : ℚ)) := by
  have hnn : NonNegBoxes inp.boxes := fun b hb => ⟨le_of_lt (hwf.2 b hb).1, le_of_lt (hwf.2 b hb).2⟩
  have h1 := have_le_work A g inp hnn (le_trans hP hint) hP
  have h2 := work_le_cap A g inp (by have := hwf.1; omega)
  refine ⟨h1, h2, fun he => le_antisymm ?_ h1⟩
  rw [he] at h2
  exact h2

/-- Witness of C4 (amended): the box `(3, 4)` with the cap `P = 14 = have`. -/
theorem work_between_have_and_cap_witness :
    WellFormed ⟨14, [(3, 4)]⟩ ∧ (14 : ℤ) ≤ 2147483647 ∧ perimeterSum [(3, 4)] ≤ 14 ∧
    (work exactArith zeroGlobals ⟨14, [(3, 4)]⟩).1 = ((perimeterSum [(3, 4)] : ℤ) : ℚ) :=
  ⟨by decide, by decide, by decide,
   (work_between_have_and_cap exactArith zeroGlobals ⟨14, [(3, 4)]⟩ (by decide) (by decide)
      (by decide)).2.2 (by decide)⟩

/-- C5. For every well-formed test case with `P < have` the answer of `work` is
at most `P`. -/
theorem work_le_cap_below_have (A : DoubleArith) (g : Globals) (inp : Input)
    (hwf : WellFormed inp) (_hP : inp.p < perimeterSum inp.boxes) :
    (work A g inp).1 ≤ (inp.p : ℚ) :=
  work_le_cap A g inp (by have := hwf.1; omega)

/-- Witness of C5: the box `(3, 4)` with the cap `P = 10 < 14 = have`. -/
theorem work_le_cap_below_have_witness :
    WellFormed ⟨10, [(3, 4)]⟩ ∧ (10 : ℤ) < perimeterSum [(3, 4)] ∧
    (work exactArith zeroGlobals ⟨10, [(3, 4)]⟩).1 ≤ ((10 : ℤ) : ℚ) :=
  ⟨by decide, by decide,
   work_le_cap_below_have exactArith zeroGlobals ⟨10, [(3, 4)]⟩ (by decide) (by decide)⟩

/-- C6. For a test case without items and a cap `p >= 0`, `have` is 0, the root
call `rec(0, 0, 0, 0)` is `check(0, 0)`, which is 0, and `work` returns 0. -/
theorem work_no_items (A : DoubleArith) (g : Globals) (p : ℤ) (hp : 0 ≤ p) :
    (readLoop A g.cs []).have_ = 0 ∧
    rec A (workSums A g ⟨p, []⟩) 0 0 0 0 = check (workSums A g ⟨p, []⟩) 0 0 ∧
    check (workSums A g ⟨p, []⟩) 0 0 = 0 ∧
    (work A g ⟨p, []⟩).1 = 0 := by
  have hq : (0 : ℚ) ≤ (p : ℚ) := by exact_mod_cast hp
  have h1 : rec A (workSums A g ⟨p, []⟩) 0 0 0 0 = check (workSums A g ⟨p, []⟩) 0 0 := by
    rw [rec_of_lt _ _ (by norm_num : (0 : ℤ) < 3), rep_zero]
    rfl
  have h2 : check (workSums A g ⟨p, []⟩) 0 0 = 0 := by
    simp [check, workSums_p, hq]
  refine ⟨rfl, h1, h2, ?_⟩
  rw [work_fst]
  simp only [Input.n, haveOf, List.foldl_nil, List.length_nil, Int.cast_zero, Nat.cast_zero]
  rw [h1, h2]

/-- Witness of C6: no items, cap `p = 5`. -/
theorem work_no_items_witness :
    (0 : ℤ) ≤ 5 ∧ (work exactArith zeroGlobals ⟨5, []⟩).1 = 0 :=
  ⟨by decide, (work_no_items exactArith zeroGlobals 5 (by decide)).2.2.2⟩

theorem check_eq_neg_one (g : Globals) (lo : ℤ) (hi : ℚ) (h1 : (g.p : ℚ) < hi) (h2 : g.p < lo) :
    check g lo hi = -1 := by
  simp [check, not_le.2 h1, not_le.2 h2]

theorem haveOf_single (w h : ℤ) (hw : 0 ≤ w) (hh : 0 ≤ h) (hfit : 2 * (w + h) ≤ 2147483647) :
    haveOf [(w, h)] = 2 * (w + h) := by
  simp only [haveOf, List.foldl_cons, List.foldl_nil, wrap]
  omega

theorem work_single_below_have (A : DoubleArith) (g : Globals) (w h p : ℤ) (hw : 0 < w)
    (hh : 0 < h) (hfit : 2 * (w + h) + 2 * min w h ≤ 2147483647) (hp : p < 2 * (w + h)) :
    (work A g ⟨p, [(w, h)]⟩).1 = -1 := by
  have hq : ((workSums A g ⟨p, [(w, h)]⟩).p : ℚ) < ((2 * (w + h) : ℤ) : ℚ) := by
    rw [workSums_p]; exact_mod_cast hp
  have hmin : 0 < min w h := lt_min hw hh
  have hv : (0 : ℚ) ≤ (item A (w, h)).2 := by
    have := A.hypot_nonneg w h
    simp only [item]
    linarith
  have hadd : ((2 * (w + h) : ℤ) : ℚ) ≤ A.add ((2 * (w + h) : ℤ) : ℚ) (item A (w, h)).2 := by
    have := A.add_mono ((2 * (w + h) : ℤ) : ℚ) 0 _ hv
    rwa [A.add_zero] at this
  have hcost : (item A (w, h)).1 = 2 * min w h := by
    simp only [item]
    exact wrap_eq_self (by omega) (by omega)
  rw [work_single, haveOf_single w h (le_of_lt hw) (le_of_lt hh) (by omega), hcost,
    wrap_eq_self (by omega) hfit]
  rw [check_eq_neg_one _ _ _ hq (by rw [workSums_p]; exact hp),
    check_eq_neg_one _ _ _ (lt_of_lt_of_le hq hadd)
      (by rw [workSums_p]; show p < 2 * (w + h) + 2 * min w h; omega)]
  simp

/-- The answer for the single box `(600000000, 800000000)` in exact arithmetic,
by the cap: `2 * (w + h) = 2800000000` wraps to `-1494967296`, the cost is
`1200000000` and the value `2 * hypot(w, h) = 2000000000`. -/
theorem work_box_overflow (g : Globals) (p : ℤ) :
    (work exactArith g ⟨p, [(600000000, 800000000)]⟩).1 =
      max (check { zeroGlobals with p := p } (-1494967296) (-1494967296))
        (check { zeroGlobals with p := p } (-294967296) 505032704) := by
  rw [work_single]
  have h0 : exactArith.hypot 600000000 800000000 = 1000000000 := by
    have h := exactArith_hypot_of_sq 600000000 800000000 1000000000 (by decide) (by decide)
    exact_mod_cast h
  have h1 : (item exactArith (600000000, 800000000)) = (1200000000, 2000000000) := by
    simp only [item, h0]
    norm_num [wrap]
  have h2 : haveOf [(600000000, 800000000)] = -1494967296 := by decide
  rw [h1, h2]
  rw [check_congr (workSums exactArith g ⟨p, [(600000000, 800000000)]⟩)
      { zeroGlobals with p := p } rfl,
    check_congr (workSums exactArith g ⟨p, [(600000000, 800000000)]⟩)
      { zeroGlobals with p := p } rfl]
  norm_num [exactArith, wrap]

/-- C7, counterexample: for the single box `(600000000, 800000000)` and the cap
`P = 2000000000`, all 32-bit values with `0 <= P < 2 * (w + h) = 2800000000`,
the `int` total `have` wraps to `-1494967296` and `work` returns `505032704`,
not `-1`. -/
theorem work_single_box_overflow :
    (0 : ℤ) < 600000000 ∧ (0 : ℤ) < 800000000 ∧ (0 : ℤ) ≤ 2000000000 ∧
    (2000000000 : ℤ) < 2 * (600000000 + 800000000) ∧
    (work exactArith zeroGlobals ⟨2000000000, [(600000000, 800000000)]⟩).1 = 505032704 ∧
    (work exactArith zeroGlobals ⟨2000000000, [(600000000, 800000000)]⟩).1 ≠ -1 := by
  have h : (work exactArith zeroGlobals ⟨2000000000, [(600000000, 800000000)]⟩).1 =
      505032704 := by
    rw [work_box_overflow]
    norm_num [check]
  refine ⟨by decide, by decide, by decide, by decide, h, ?_⟩
  rw [h]
  norm_num

/-- C7 (amended). For the test case `N = 1`, `P = 10` with the box `(3, 4)` the
item is `(6, 10)` (given that `hypot(3, 4)` is 5), `have` is 14 and `work`
returns `-1`; and for every single box with positive sides for which
`2 * (w + h) + 2 * min(w, h)` is at most 2^31 - 1 = 2147483647 (no `int`
expression overflows) and every `0 <= P < 2 * (w + h)`, `work` returns `-1`. -/
theorem work_single_box_infeasible :
    (∀ (A : DoubleArith) (g : Globals),
      (A.hypot 3 4 = 5 → item A (3, 4) = (6, 10)) ∧
      (readLoop A g.cs [(3, 4)]).have_ = 14 ∧
      (work A g ⟨10, [(3, 4)]⟩).1 = -1) ∧
    (∀ (A : DoubleArith) (g : Globals) (w h p : ℤ), 0 < w → 0 < h →
      2 * (w + h) + 2 * min w h ≤ 2147483647 → 0 ≤ p →
      p < 2 * (w + h) → (work A g ⟨p, [(w, h)]⟩).1 = -1) := by
  constructor
  · intro A g
    refine ⟨fun h5 => ?_, ?_, ?_⟩
    · simp only [item, h5]
      norm_num [wrap]
    · rw [readLoop_have]
      decide
    · exact work_single_below_have A g 3 4 10 (by decide) (by decide) (by decide) (by decide)
  · intro A g w h p hw hh hfit _ hp
    exact work_single_below_have A g w h p hw hh hfit hp

/-- Witness of C7 (amended): the scenario in exact arithmetic, and the box
`(5, 12)` with the cap `P = 33 < 34 = have`. -/
theorem work_single_box_infeasible_witness :
    item exactArith (3, 4) = (6, 10) ∧
    (work exactArith zeroGlobals ⟨10, [(3, 4)]⟩).1 = -1 ∧
    (work exactArith zeroGlobals ⟨33, [(5, 12)]⟩).1 = -1 :=
  ⟨(work_single_box_infeasible.1 exactArith zeroGlobals).1 exactArith_hypot_3_4,
   (work_single_box_infeasible.1 exactArith zeroGlobals).2.2,
   work_single_box_infeasible.2 exactArith zeroGlobals 5 12 33 (by decide) (by decide)
     (by decide) (by decide) (by decide)⟩

theorem work_congr (A : DoubleArith) (g₁ g₂ : Globals) (inp : Input)
    (h : g₁.sum 0 = g₂.sum 0) : (work A g₁ inp).1 = (work A g₂ inp).1 := by
  have hcs : ∀ i : ℤ, 0 ≤ i → i < inp.n →
      (workSums A g₁ inp).cs i = (workSums A g₂ inp).cs i := by
    intro i h0 h1
    obtain ⟨k, rfl⟩ := Int.eq_ofNat_of_zero_le h0
    have hk : k < inp.boxes.length := by
      simp only [Input.n] at h1
      omega
    rw [workSums_cs, workSums_cs, workSort_cs A g₁ inp k hk, workSort_cs A g₂ inp k hk]
  have hsum : ∀ i : ℤ, 0 ≤ i → i ≤ inp.n →
      (workSums A g₁ inp).sum i = (workSums A g₂ inp).sum i := by
    intro i h0 h1
    obtain ⟨k, rfl⟩ := Int.eq_ofNat_of_zero_le h0
    have hk : k ≤ inp.boxes.length := by
      simp only [Input.n] at h1
      omega
    rw [workSums_sum A g₁ inp k hk, workSums_sum A g₂ inp k hk, h,
      cells_congr _ _ _ (fun j hj0 hj1 => hcs j hj0 (by omega))]
  rw [work_fst, work_fst]
  exact rec_congr A (workSums A g₁ inp) (workSums A g₂ inp) rfl 3 0 inp.n _ _ rfl
    (by simp [Input.n]) hcs hsum

/-- C8. The answer of `work` is a function of the test case only: from any two
contents of the global buffers with `sum[0] = 0` it returns the same value on
the same input; `work` leaves `sum[0] = 0`, so the same holds for the run
after any other test case, and for running the same case twice. -/
theorem work_answer_independent (A : DoubleArith) (g₁ g₂ : Globals) (inp other : Input)
    (h₁ : g₁.sum 0 = 0) (h₂ : g₂.sum 0 = 0) :
    (work A g₁ inp).1 = (work A g₂ inp).1 ∧
    (work A g₁ other).2.sum 0 = 0 ∧
    (work A (work A g₁ other).2 inp).1 = (work A g₂ inp).1 ∧
    (work A (work A g₁ inp).2 inp).1 = (work A g₁ inp).1 := by
  have hkeep : ∀ x : Input, (work A g₁ x).2.sum 0 = 0 := by
    intro x
    have : (work A g₁ x).2 = workSums A g₁ x := rfl
    rw [this, workSums_sum_zero, h₁]
  refine ⟨work_congr A g₁ g₂ inp (by rw [h₁, h₂]), hkeep other, ?_, ?_⟩
  · exact work_congr A _ g₂ inp (by rw [hkeep other, h₂])
  · exact work_congr A _ g₁ inp (by rw [hkeep inp, h₁])

/-- Witness of C8: the zeroed globals against buffers filled with other data. -/
theorem work_answer_independent_witness :
    zeroGlobals.sum 0 = 0 ∧
    (work exactArith zeroGlobals ⟨100, [(5, 12), (3, 4)]⟩).1 =
      (work exactArith
        { cs := fun _ => (7, 9), p := 3, sum := fun i => if i = 0 then 0 else 5 }
        ⟨100, [(5, 12), (3, 4)]⟩).1 :=
  ⟨rfl,
   (work_answer_independent exactArith zeroGlobals
      { cs := fun _ => (7, 9), p := 3, sum := fun i => if i = 0 then 0 else 5 }
      ⟨100, [(5, 12), (3, 4)]⟩ ⟨10, [(8, 6)]⟩ rfl (by simp)).1⟩

/-- C9. After the prefix-sum loop of `work`, started with `sum[0] = 0`, every
`sum[i]` with `0 <= i <= n` is the sum, accumulated from the left with the
addition of doubles, of the values `cs[0].snd, ..., cs[i-1].snd` of the first
`i` sorted items; where that addition is exact it is their sum; and `sum[0]`
is 0. -/
theorem prefix_sums_after_loop (A : DoubleArith) (g : Globals) (inp : Input)
    (h0 : g.sum 0 = 0) (i : ℤ) (hi0 : 0 ≤ i) (hin : i ≤ inp.n) :
    (workSums A g inp).sum i =
      ((cells (workSums A g inp).cs i).map Prod.snd).foldl A.add 0 ∧
    ((∀ x y, A.add x y = x + y) →
      (workSums A g inp).sum i = ((cells (workSums A g inp).cs i).map Prod.snd).sum) ∧
    (workSums A g inp).sum 0 = 0 := by
  obtain ⟨k, rfl⟩ := Int.eq_ofNat_of_zero_le hi0
  have hk : k ≤ inp.boxes.length := by
    simp only [Input.n] at hin
    omega
  have h1 := workSums_sum A g inp k hk
  rw [h0] at h1
  refine ⟨h1, fun hex => ?_, by rw [workSums_sum_zero, h0]⟩
  have hadd : A.add = fun x y => x + y := funext fun x => funext fun y => hex x y
  rw [h1, hadd, foldl_add_eq_sum, zero_add]

/-- Witness of C9: `sum[2]` for the boxes `(5, 12)` and `(3, 4)` in exact
arithmetic. -/
theorem prefix_sums_after_loop_witness :
    zeroGlobals.sum 0 = 0 ∧ (0 : ℤ) ≤ 2 ∧ (2 : ℤ) ≤ (⟨100, [(5, 12), (3, 4)]⟩ : Input).n ∧
    (workSums exactArith zeroGlobals ⟨100, [(5, 12), (3, 4)]⟩).sum 2 =
      ((cells (workSums exactArith zeroGlobals ⟨100, [(5, 12), (3, 4)]⟩).cs 2).map
        Prod.snd).sum :=
  ⟨rfl, by decide, by decide,
   (prefix_sums_after_loop exactArith zeroGlobals ⟨100, [(5, 12), (3, 4)]⟩ rfl 2 (by decide)
      (by decide)).2.1 (fun _ _ => rfl)⟩

/-- C10. After the sort step of `work`, the cells `cs[0 .. n)` are a
permutation of the `n` items computed from the boxes, and they are
non-decreasing in the lexicographic order of pairs: for `i < j < n` either
`cs[i].fst < cs[j].fst`, or the costs are equal and `cs[i].snd <= cs[j].snd`. -/
theorem sort_step_sorted_perm (A : DoubleArith) (g : Globals) (inp : Input) :
    (cells (workSort A g inp).cs inp.n).Perm (inp.boxes.map (item A)) ∧
    ∀ i j : ℤ, 0 ≤ i → i < j → j < inp.n →
      ((workSort A g inp).cs i).1 < ((workSort A g inp).cs j).1 ∨
      (((workSort A g inp).cs i).1 = ((workSort A g inp).cs j).1 ∧
        ((workSort A g inp).cs i).2 ≤ ((workSort A g inp).cs j).2) := by
  constructor
  · rw [cells_workSort]
    exact List.perm_insertionSort pairLe _
  · intro i j h0 hij hjn
    obtain ⟨a, rfl⟩ := Int.eq_ofNat_of_zero_le h0
    obtain ⟨b, rfl⟩ := Int.eq_ofNat_of_zero_le (le_trans h0 (le_of_lt hij))
    have hab : a < b := by omega
    have hlen : ((inp.boxes.map (item A)).insertionSort pairLe).length = inp.boxes.length := by
      rw [List.length_insertionSort, List.length_map]
    have hb : b < inp.boxes.length := by
      simp only [Input.n] at hjn
      omega
    have hsorted := List.sorted_insertionSort pairLe (inp.boxes.map (item A))
    have hrel := hsorted.rel_get_of_lt (a := ⟨a, by omega⟩) (b := ⟨b, by omega⟩) hab
    rw [workSort_cs A g inp a (by omega), workSort_cs A g inp b hb,
      List.getD_eq_getElem _ _ (by omega), List.getD_eq_getElem _ _ (by omega)]
    exact (pairLe_iff _ _).1 hrel

/-- Witness of C10: the cells 0 and 1 for the boxes `(5, 12)` and `(3, 4)`. -/
theorem sort_step_sorted_perm_witness :
    ((workSort exactArith zeroGlobals ⟨100, [(5, 12), (3, 4)]⟩).cs 0).1 <
        ((workSort exactArith zeroGlobals ⟨100, [(5, 12), (3, 4)]⟩).cs 1).1 ∨
      (((workSort exactArith zeroGlobals ⟨100, [(5, 12), (3, 4)]⟩).cs 0).1 =
          ((workSort exactArith zeroGlobals ⟨100, [(5, 12), (3, 4)]⟩).cs 1).1 ∧
        ((workSort exactArith zeroGlobals ⟨100, [(5, 12), (3, 4)]⟩).cs 0).2 ≤
          ((workSort exactArith zeroGlobals ⟨100, [(5, 12), (3, 4)]⟩).cs 1).2) :=
  (sort_step_sorted_perm exactArith zeroGlobals ⟨100, [(5, 12), (3, 4)]⟩).2 0 1 (by decide)
    (by decide) (by decide)

/-! ## The items and the total built by `work` -/

theorem le_perimeterSum (boxes : List (ℤ × ℤ)) (hnn : NonNegBoxes boxes) (b : ℤ × ℤ)
    (hb : b ∈ boxes) : 2 * (b.1 + b.2) ≤ perimeterSum boxes := by
  induction boxes with
  | nil => simp at hb
  | cons c t ih =>
    have hc := hnn c (List.mem_cons_self _ _)
    have hnt : NonNegBoxes t := fun x hx => hnn x (List.mem_cons_of_mem _ hx)
    have ht := perimeterSum_nonneg t hnt
    have hcons : perimeterSum (c :: t) = 2 * (c.1 + c.2) + perimeterSum t := by
      simp [perimeterSum]
    rw [hcons]
    rcases List.mem_cons.1 hb with rfl | h
    · omega
    · have := ih hnt h
      omega

/-- Without overflow the cost of an item is `2 * min(w, h)`. -/
theorem item_cost_eq (A : DoubleArith) (b : ℤ × ℤ) (hb : 0 ≤ b.1 ∧ 0 ≤ b.2)
    (hfit : 2 * (b.1 + b.2) ≤ 2147483647) : (item A b).1 = 2 * min b.1 b.2 := by
  simp only [item]
  exact wrap_eq_self (by omega) (by omega)

theorem no_rat_sq_eight (q : ℚ) : q ^ 2 ≠ 8 := by
  intro h
  have hsq : IsSquare (8 : ℚ) := ⟨q, by rw [← h]; ring⟩
  rw [Rat.isSquare_iff] at hsq
  obtain ⟨⟨r, hr⟩, -⟩ := hsq
  have h8 : (8 : ℚ).num = 8 := rfl
  rw [h8] at hr
  have h1 : r ≤ 3 := by nlinarith
  have h2 : -3 ≤ r := by nlinarith
  interval_cases r <;> omega

/-- C11, counterexample: for the box `(600000000, 800000000)` the sum of
`2 * (w + h)` is 2800000000, but the `int` total `have` of the first loop is
`-1494967296`; and for the box `(1, 1)` no double, whatever the arithmetic,
is `2 * sqrt(1 + 1)`: its square would be 8. -/
theorem work_have_overflow :
    perimeterSum [(600000000, 800000000)] = 2800000000 ∧
    (readLoop exactArith zeroGlobals.cs [(600000000, 800000000)]).have_ = -1494967296 ∧
    ¬ ∃ A : DoubleArith, (item A (1, 1)).2 ^ 2 = 4 * (((1 : ℤ) ^ 2 + (1 : ℤ) ^ 2 : ℤ) : ℚ) := by
  refine ⟨by decide, ?_, ?_⟩
  · rw [readLoop_have]
    decide
  · rintro ⟨A, hA⟩
    apply no_rat_sq_eight (item A (1, 1)).2
    rw [hA]
    norm_num

/-- C11 (amended). For every list of boxes with sides that are not negative
and a sum of `2 * (w + h)` of at most 2^31 - 1 = 2147483647, the first loop of
`work` stores for each box `(w, h)` the item with cost `2 * min(w, h)` and
value `2 * hypot(w, h)`, in input order; that value is not negative and is
`2 * sqrt(w^2 + h^2)` up to the relative error `2^-52` of `hypot`; the total
`have` is the sum of `2 * (w + h)` over the boxes; and `work` returns
`rec(0, n, have, have)`. -/
theorem work_items_and_have (A : DoubleArith) (g : Globals) (inp : Input)
    (hnn : NonNegBoxes inp.boxes) (hfit : perimeterSum inp.boxes ≤ 2147483647) :
    cells (readLoop A g.cs inp.boxes).cs inp.n =
      inp.boxes.map (fun b => ((2 * min b.1 b.2, 2 * A.hypot b.1 b.2) : Item)) ∧
    (∀ b ∈ inp.boxes, 0 ≤ (item A b).2 ∧
      (1 - 1 / 2 ^ 52) ^ 2 * (4 * ((b.1 * b.1 + b.2 * b.2 : ℤ) : ℚ)) ≤ (item A b).2 ^ 2 ∧
      (item A b).2 ^ 2 ≤ (1 + 1 / 2 ^ 52) ^ 2 * (4 * ((b.1 * b.1 + b.2 * b.2 : ℤ) : ℚ))) ∧
    (readLoop A g.cs inp.boxes).have_ = perimeterSum inp.boxes ∧
    (work A g inp).1 =
      rec A (work A g inp).2 0 inp.n (perimeterSum inp.boxes)
        ((perimeterSum inp.boxes : ℤ) : ℚ) := by
  refine ⟨?_, ?_, ?_, work_fst_fit A g inp hnn hfit⟩
  · rw [Input.n, cells_readLoop]
    apply List.map_congr_left
    intro b hb
    have h1 := le_perimeterSum inp.boxes hnn b hb
    have h2 := item_cost_eq A b (hnn b hb) (by omega)
    exact Prod.ext h2 rfl
  · intro b hb
    have h1 := le_perimeterSum inp.boxes hnn b hb
    have h0 := hnn b hb
    have hge := A.hypot_sq_ge b.1 b.2 (by omega) (by omega) (by omega) (by omega)
    have hle := A.hypot_sq_le b.1 b.2 (by omega) (by omega) (by omega) (by omega)
    have hnn' := A.hypot_nonneg b.1 b.2
    simp only [item]
    refine ⟨by linarith, ?_, ?_⟩
    · rw [mul_pow]
      linarith
    · rw [mul_pow]
      linarith
  · rw [readLoop_have]
    exact haveOf_eq inp.boxes hnn hfit

/-- Witness of C11 (amended): the box `(3, 4)` in exact arithmetic, with the
total 14. -/
theorem work_items_and_have_witness :
    NonNegBoxes [(3, 4)] ∧ perimeterSum [(3, 4)] ≤ 2147483647 ∧
    (readLoop exactArith zeroGlobals.cs [(3, 4)]).have_ = perimeterSum [(3, 4)] :=
  ⟨by decide, by decide,
   (work_items_and_have exactArith zeroGlobals ⟨10, [(3, 4)]⟩ (by decide) (by decide)).2.2.1⟩

/-! ## `check` above the cap -/

/-- C13, counterexample: with `p = 10`, `lo = 20` and `hi = 7` the cap is below
`lo`, yet `check` returns `hi = 7`, because `hi <= p` is tested first. -/
theorem check_below_lo_not_neg_one :
    ({ zeroGlobals with p := 10 } : Globals).p < 20 ∧
    check { zeroGlobals with p := 10 } 20 7 ≠ -1 := by
  refine ⟨by decide, ?_⟩
  norm_num [check]

/-- C13 (amended). For every `lo`, `hi` and cap `p`, `check(lo, hi)` returns
`-1` whenever `p < lo` and `p < hi`. -/
theorem check_neg_one_above_cap (g : Globals) (lo : ℤ) (hi : ℚ) (h1 : g.p < lo)
    (h2 : (g.p : ℚ) < hi) : check g lo hi = -1 :=
  check_eq_neg_one g lo hi h2 h1

/-- Witness of C13 (amended): `p = 10`, `lo = 20`, `hi = 24`. -/
theorem check_neg_one_above_cap_witness :
    check { zeroGlobals with p := 10 } 20 24 = -1 :=
  check_neg_one_above_cap { zeroGlobals with p := 10 } 20 24 (by decide) (by norm_num)

/-! ## The call tree of `rec` -/

theorem mem_calls {A : DoubleArith} {g : Globals} {c d : Call} :
    d ∈ calls A g c ↔
      c.lvl < 3 ∧ ∃ i, 0 ≤ i ∧ i < c.n ∧
        d = { lvl := c.lvl + 1, n := i, lo := wrap (c.lo + (g.cs i).1),
              hi := A.add c.hi (g.cs i).2 } := by
  unfold calls
  by_cases h : c.lvl < 3
  · simp only [h, if_true, List.mem_map, true_and]
    constructor
    · rintro ⟨i, hi, rfl⟩
      exact ⟨i, (mem_rep.1 hi).1, (mem_rep.1 hi).2, rfl⟩
    · rintro ⟨i, h0, h1, rfl⟩
      exact ⟨i, mem_rep.2 ⟨h0, h1⟩, rfl⟩
  · simp [h]

theorem calls_step {A : DoubleArith} {g : Globals} {c d : Call} (h : d ∈ calls A g c) :
    c.lvl < 3 ∧ d.lvl = c.lvl + 1 ∧ 0 ≤ d.n ∧ d.n < c.n ∧
      d.lo = wrap (c.lo + (g.cs d.n).1) ∧ d.hi = A.add c.hi (g.cs d.n).2 := by
  obtain ⟨h3, i, h0, h1, rfl⟩ := mem_calls.1 h
  exact ⟨h3, rfl, h0, h1, rfl, rfl⟩

/-- The body of `rec`, in terms of the calls it makes. -/
theorem rec_eq_calls (A : DoubleArith) (g : Globals) (c : Call) :
    rec A g c.lvl c.n c.lo c.hi =
      (calls A g c).foldl (fun ans d => max ans (rec A g d.lvl d.n d.lo d.hi))
        (check g c.lo (A.add c.hi (if c.lvl = 3 then g.sum c.n else 0))) := by
  by_cases h : c.lvl < 3
  · have h3 : c.lvl ≠ 3 := by omega
    rw [rec_of_lt A g h]
    simp only [calls, h, if_true, h3, if_false, A.add_zero, List.foldl_map]
  · rw [rec_of_ge A g (not_lt.1 h)]
    simp [calls, h]

theorem reach_inv (A : DoubleArith) (g : Globals) (n lo : ℤ) (hi : ℚ) (c : Call)
    (h : Reach A g { lvl := 0, n := n, lo := lo, hi := hi } c) :
    0 ≤ c.lvl ∧ c.lvl ≤ 3 ∧ c.n ≤ n ∧ (0 ≤ n → 0 ≤ c.n) ∧ (0 < c.lvl → 0 ≤ c.n ∧ c.n < n) := by
  induction h with
  | root => simp
  | step _ hd ih =>
    obtain ⟨h3, hl, h0, h1, -, -⟩ := calls_step hd
    obtain ⟨i0, _, i2, _, _⟩ := ih
    exact ⟨by omega, by omega, by omega, fun _ => h0, fun _ => ⟨h0, by omega⟩⟩

theorem chain_calls (A : DoubleArith) (g : Globals) :
    ∀ (l : List Call) (c : Call), List.Chain (fun c d => d ∈ calls A g c) c l →
      (l.length : ℤ) ≤ max 0 (3 - c.lvl) ∧ (∀ d ∈ l, 0 ≤ d.n ∧ d.n < c.n) ∧
        List.Pairwise (fun a b : Call => b.n < a.n) (c :: l) := by
  intro l
  induction l with
  | nil => intro c _; simp
  | cons d t ih =>
    intro c hch
    obtain ⟨hd, ht⟩ := List.chain_cons.1 hch
    obtain ⟨h3, hl, h0, h1, -, -⟩ := calls_step hd
    obtain ⟨ilen, imem, ipw⟩ := ih d ht
    have hall : ∀ x ∈ d :: t, 0 ≤ x.n ∧ x.n < c.n := by
      intro x hx
      rcases List.mem_cons.1 hx with rfl | hx
      · exact ⟨h0, h1⟩
      · exact ⟨(imem x hx).1, lt_trans (imem x hx).2 h1⟩
    refine ⟨?_, hall, List.pairwise_cons.2 ⟨fun x hx => (hall x hx).2, ipw⟩⟩
    simp only [List.length_cons]
    push_cast
    rw [hl] at ilen
    have hm : max 0 (3 - (c.lvl + 1)) = 3 - (c.lvl + 1) := max_eq_right (by omega)
    have hm2 : max 0 (3 - c.lvl) = 3 - c.lvl := max_eq_right (by omega)
    rw [hm] at ilen
    rw [hm2]
    omega

/-- C12. Every call reachable from a root call `rec(0, n, lo, hi)` has a level
between 0 and 3 and an index bound `n' <= n`, which is not negative when the
root's is not, and lies in `0 .. n - 1` for every call other than the root.
Each recursive call has its parent's level plus one and an index bound
`0 <= i < n'` below its parent's; so a path of recursive calls from the root
has at most 3 calls, and the indices selected along it are strictly
decreasing and below `n`.  A call at level 3 makes no recursive call.  The
value of `rec` is the maximum of its check and of the values of the calls it
makes. -/
theorem rec_calls_levels_indices (A : DoubleArith) (g : Globals) (n lo : ℤ) (hi : ℚ) :
    (∀ c, Reach A g { lvl := 0, n := n, lo := lo, hi := hi } c →
      0 ≤ c.lvl ∧ c.lvl ≤ 3 ∧ c.n ≤ n ∧ (0 ≤ n → 0 ≤ c.n) ∧
        (0 < c.lvl → 0 ≤ c.n ∧ c.n < n)) ∧
    (∀ c d, d ∈ calls A g c → d.lvl = c.lvl + 1 ∧ 0 ≤ d.n ∧ d.n < c.n) ∧
    (∀ l, List.Chain (fun c d => d ∈ calls A g c) { lvl := 0, n := n, lo := lo, hi := hi } l →
      l.length ≤ 3 ∧ List.Pairwise (fun a b : Call => b.n < a.n) l ∧
        ∀ d ∈ l, 0 ≤ d.n ∧ d.n < n) ∧
    (∀ n' lo' hi', calls A g { lvl := 3, n := n', lo := lo', hi := hi' } = []) ∧
    (∀ c : Call, rec A g c.lvl c.n c.lo c.hi =
      (calls A g c).foldl (fun ans d => max ans (rec A g d.lvl d.n d.lo d.hi))
        (check g c.lo (A.add c.hi (if c.lvl = 3 then g.sum c.n else 0)))) := by
  refine ⟨fun c hc => reach_inv A g n lo hi c hc, ?_, ?_, ?_, rec_eq_calls A g⟩
  · intro c d hd
    obtain ⟨-, hl, h0, h1, -, -⟩ := calls_step hd
    exact ⟨hl, h0, h1⟩
  · intro l hl
    obtain ⟨h1, h2, h3⟩ := chain_calls A g l _ hl
    refine ⟨?_, (List.pairwise_cons.1 h3).2, h2⟩
    have : max (0 : ℤ) (3 - 0) = 3 := by norm_num
    simp only [this] at h1
    omega
  · intro n' lo' hi'
    simp [calls]

/-- Witness of C12: with `n = 2` the call `rec(1, 1, lo + cs[1].fst,
hi + cs[1].snd)` made by the root is reachable, at level 1 with bound `1 < 2`. -/
theorem rec_calls_levels_indices_witness :
    Reach exactArith zeroGlobals { lvl := 0, n := 2, lo := 14, hi := 14 }
        { lvl := 1, n := 1, lo := 14, hi := 14 } ∧
      ((0 : ℤ) ≤ 1 ∧ (1 : ℤ) ≤ 3 ∧ (1 : ℤ) ≤ 2) := by
  have hr : Reach exactArith zeroGlobals { lvl := 0, n := 2, lo := 14, hi := 14 }
      { lvl := 1, n := 1, lo := 14, hi := 14 } := by
    refine Reach.step Reach.root (mem_calls.2 ⟨by decide, 1, by decide, by decide, ?_⟩)
    norm_num [zeroGlobals, exactArith, wrap]
  have h := (rec_calls_levels_indices exactArith zeroGlobals 2 14 14).1 _ hr
  exact ⟨hr, h.1, h.2.1, h.2.2.1⟩

/-- C19. `rec` terminates on every argument tuple, levels outside `0 .. 3` and
negative `n` included: the relation "`d` is a recursive call made by the body
of `rec` on `c`" is well-founded, since such a call exists only below level
3, has level `lvl + 1` and an index bound `0 <= i < n`; from level 3 on, and
for `n <= 0`, the body makes no call; and on every tuple the total function
`rec` equals its body evaluated on the results of these calls. -/
theorem rec_terminates (A : DoubleArith) (g : Globals) :
    WellFounded (fun d c : Call => d ∈ calls A g c) ∧
    (∀ c d, d ∈ calls A g c →
      c.lvl < 3 ∧ d.lvl = c.lvl + 1 ∧ 0 ≤ d.n ∧ d.n < c.n ∧
        (3 - d.lvl).toNat < (3 - c.lvl).toNat) ∧
    (∀ c : Call, 3 ≤ c.lvl ∨ c.n ≤ 0 → calls A g c = []) ∧
    (∀ (lvl n lo : ℤ) (hi : ℚ), rec A g lvl n lo hi =
      (calls A g { lvl := lvl, n := n, lo := lo, hi := hi }).foldl
        (fun ans d => max ans (rec A g d.lvl d.n d.lo d.hi))
        (check g lo (A.add hi (if lvl = 3 then g.sum n else 0)))) := by
  have hstep : ∀ c d, d ∈ calls A g c →
      c.lvl < 3 ∧ d.lvl = c.lvl + 1 ∧ 0 ≤ d.n ∧ d.n < c.n ∧
        (3 - d.lvl).toNat < (3 - c.lvl).toNat := by
    intro c d hd
    obtain ⟨h3, hl, h0, h1, -, -⟩ := calls_step hd
    exact ⟨h3, hl, h0, h1, by omega⟩
  refine ⟨?_, hstep, ?_, fun lvl n lo hi => rec_eq_calls A g ⟨lvl, n, lo, hi⟩⟩
  · apply Subrelation.wf (r := InvImage (· < ·) fun c : Call => (3 - c.lvl).toNat)
    · intro d c hd
      exact (hstep c d hd).2.2.2.2
    · exact InvImage.wf _ Nat.lt_wfRel.wf
  · intro c hc
    rcases hc with h | h
    · simp [calls, not_lt.2 h]
    · have hn : c.n.toNat = 0 := Int.toNat_eq_zero.2 h
      simp [calls, rep, hn]

/-- Witness of C19: the call `rec(7, -2, 0, 0)`, outside the levels `0 .. 3` and
with a negative bound, makes no call and returns its check. -/
theorem rec_terminates_witness :
    calls exactArith zeroGlobals { lvl := 7, n := -2, lo := 0, hi := 0 } = [] ∧
    rec exactArith zeroGlobals 7 (-2) 0 0 = 0 := by
  have h := rec_terminates exactArith zeroGlobals
  have hc := h.2.2.1 { lvl := 7, n := -2, lo := 0, hi := 0 } (Or.inl (by decide))
  refine ⟨hc, ?_⟩
  rw [h.2.2.2 7 (-2) 0 0, hc]
  norm_num [check, exactArith, zeroGlobals]

/-! ## The argument pairs of `check` on the paths of `work` -/

theorem isPathCheck_iff (A : DoubleArith) (g : Globals) (n lo : ℤ) (hi v : ℚ) :
    IsPathCheck A g n lo hi v ↔
      ∃ lo' hi', PathArgs A g n lo hi lo' hi' ∧ v = check g lo' hi' := by
  constructor
  · rintro (h | ⟨i, h0, h1, h⟩ | ⟨i, j, h0, h1, h2, h⟩ | ⟨i, j, k, h0, h1, h2, h3, h⟩)
    · exact ⟨_, _, Or.inl ⟨rfl, rfl⟩, h⟩
    · exact ⟨_, _, Or.inr (Or.inl ⟨i, h0, h1, rfl, rfl⟩), h⟩
    · exact ⟨_, _, Or.inr (Or.inr (Or.inl ⟨i, j, h0, h1, h2, rfl, rfl⟩)), h⟩
    · exact ⟨_, _, Or.inr (Or.inr (Or.inr ⟨i, j, k, h0, h1, h2, h3, rfl, rfl⟩)), h⟩
  · rintro ⟨lo', hi', (⟨rfl, rfl⟩ | ⟨i, h0, h1, rfl, rfl⟩ | ⟨i, j, h0, h1, h2, rfl, rfl⟩ |
      ⟨i, j, k, h0, h1, h2, h3, rfl, rfl⟩), hv⟩
    · exact Or.inl hv
    · exact Or.inr (Or.inl ⟨i, h0, h1, hv⟩)
    · exact Or.inr (Or.inr (Or.inl ⟨i, j, h0, h1, h2, hv⟩))
    · exact Or.inr (Or.inr (Or.inr ⟨i, j, k, h0, h1, h2, h3, hv⟩))

theorem le_add_of_nonneg (A : DoubleArith) (x v : ℚ) (hv : 0 ≤ v) : x ≤ A.add x v := by
  have h := A.add_mono x 0 v hv
  rwa [A.add_zero] at h

theorem foldl_add_nonneg (A : DoubleArith) (l : List ℚ) (a : ℚ) (ha : 0 ≤ a)
    (hl : ∀ v ∈ l, 0 ≤ v) : 0 ≤ l.foldl A.add a := by
  induction l generalizing a with
  | nil => simpa using ha
  | cons b t ih =>
    simp only [List.foldl_cons]
    apply ih
    · exact le_trans ha (le_add_of_nonneg A a b (hl b (List.mem_cons_self _ _)))
    · intro v hv
      exact hl v (List.mem_cons_of_mem _ hv)

/-- On every path the arguments of `check` are at least those of the root,
when the costs read lie in `0 .. C`, the values and the prefix sums read are
not negative, and `lo + 3 * C` fits in an `int`. -/
theorem pathArgs_ge (A : DoubleArith) (g : Globals) (n lo : ℤ) (hi : ℚ) (C : ℤ)
    (hc : ∀ i, 0 ≤ i → i < n → 0 ≤ (g.cs i).1 ∧ (g.cs i).1 ≤ C ∧ 0 ≤ (g.cs i).2)
    (hs : ∀ k, 0 ≤ k → k < n → 0 ≤ g.sum k) (hlo : -2147483648 ≤ lo)
    (hfit : lo + 3 * C ≤ 2147483647) {lo' : ℤ} {hi' : ℚ}
    (h : PathArgs A g n lo hi lo' hi') : lo ≤ lo' ∧ hi ≤ hi' := by
  rcases h with ⟨rfl, rfl⟩ | ⟨i, h0, h1, rfl, rfl⟩ | ⟨i, j, h0, h1, h2, rfl, rfl⟩ |
    ⟨i, j, k, h0, h1, h2, h3, rfl, rfl⟩
  · exact ⟨le_refl _, le_refl _⟩
  · have hi1 := hc i h0 h1
    exact ⟨by unfold wrap; omega, le_add_of_nonneg A _ _ hi1.2.2⟩
  · have hi1 := hc i (by omega) h2
    have hj1 := hc j h0 (by omega)
    exact ⟨by unfold wrap; omega,
      le_trans (le_add_of_nonneg A _ _ hi1.2.2) (le_add_of_nonneg A _ _ hj1.2.2)⟩
  · have hi1 := hc i (by omega) h3
    have hj1 := hc j (by omega) (by omega)
    have hk1 := hc k h0 (by omega)
    have hk2 := hs k h0 (by omega)
    exact ⟨by unfold wrap; omega,
      le_trans (le_add_of_nonneg A _ _ hi1.2.2)
        (le_trans (le_add_of_nonneg A _ _ hj1.2.2)
          (le_trans (le_add_of_nonneg A _ _ hk1.2.2) (le_add_of_nonneg A _ _ hk2)))⟩

/-- Each of the first `n` cells of `cs` left by `work` is the item of a box. -/
theorem workSums_cs_item (A : DoubleArith) (g : Globals) (inp : Input) (i : ℤ) (h0 : 0 ≤ i)
    (h1 : i < inp.n) : ∃ b ∈ inp.boxes, (workSums A g inp).cs i = item A b := by
  obtain ⟨k, rfl⟩ := Int.eq_ofNat_of_zero_le h0
  have hk : k < inp.boxes.length := by
    simp only [Input.n] at h1
    omega
  have hlen : ((inp.boxes.map (item A)).insertionSort pairLe).length = inp.boxes.length := by
    rw [List.length_insertionSort, List.length_map]
  rw [workSums_cs, workSort_cs A g inp k hk, List.getD_eq_getElem _ _ (by omega)]
  have hmem : ((inp.boxes.map (item A)).insertionSort pairLe)[k] ∈
      (inp.boxes.map (item A)).insertionSort pairLe := List.getElem_mem _
  have hmem2 := (List.perm_insertionSort pairLe _).mem_iff.1 hmem
  obtain ⟨b, hb, hbe⟩ := List.mem_map.1 hmem2
  exact ⟨b, hb, hbe.symm⟩

theorem item_value_nonneg (A : DoubleArith) (b : ℤ × ℤ) : 0 ≤ (item A b).2 := by
  have hh := A.hypot_nonneg b.1 b.2
  simp only [item]
  linarith

theorem noOverflow_bounds (boxes : List (ℤ × ℤ)) (hnn : NonNegBoxes boxes)
    (hov : NoOverflow boxes) :
    0 ≤ perimeterSum boxes ∧ perimeterSum boxes ≤ 2147483647 ∧ 0 ≤ maxCost boxes ∧
      perimeterSum boxes + 3 * maxCost boxes ≤ 2147483647 := by
  have h1 := perimeterSum_nonneg boxes hnn
  have h2 := maxCost_nonneg boxes
  unfold NoOverflow at hov
  exact ⟨h1, by omega, h2, hov⟩

/-- Without overflow the first `n` cells of `cs` left by `work` hold costs
`2 * min(w, h)` in `0 .. maxCost` and values that are not negative. -/
theorem workSums_cs_bounds (A : DoubleArith) (g : Globals) (inp : Input)
    (hnn : NonNegBoxes inp.boxes) (hov : NoOverflow inp.boxes) (i : ℤ) (h0 : 0 ≤ i)
    (h1 : i < inp.n) :
    0 ≤ ((workSums A g inp).cs i).1 ∧ ((workSums A g inp).cs i).1 ≤ maxCost inp.boxes ∧
      0 ≤ ((workSums A g inp).cs i).2 := by
  obtain ⟨b, hb, he⟩ := workSums_cs_item A g inp i h0 h1
  obtain ⟨_, b2, _, _⟩ := noOverflow_bounds inp.boxes hnn hov
  have hb0 := hnn b hb
  have hsum := le_perimeterSum inp.boxes hnn b hb
  have hcost := item_cost_eq A b hb0 (by omega)
  have hmax := le_maxCost inp.boxes b hb
  rw [he, hcost]
  exact ⟨by omega, hmax, item_value_nonneg A b⟩

theorem workSums_sum_nonneg (A : DoubleArith) (g : Globals) (inp : Input)
    (h0 : g.sum 0 = 0) (k : ℤ) (hk0 : 0 ≤ k) (hk1 : k ≤ inp.n) :
    0 ≤ (workSums A g inp).sum k := by
  obtain ⟨m, rfl⟩ := Int.eq_ofNat_of_zero_le hk0
  have hm : m ≤ inp.boxes.length := by
    simp only [Input.n] at hk1
    omega
  rw [workSums_sum A g inp m hm, h0]
  apply foldl_add_nonneg A _ 0 (le_refl 0)
  intro v hv
  obtain ⟨c, hc, rfl⟩ := List.mem_map.1 hv
  obtain ⟨i, hi, rfl⟩ := List.mem_map.1 hc
  obtain ⟨i0, i1⟩ := mem_rep.1 hi
  obtain ⟨b, _, he⟩ := workSums_cs_item A g inp i i0 (by omega)
  rw [he]
  exact item_value_nonneg A b

/-- Without overflow the arguments of `check` are at least `have` on every
path of `work`. -/
theorem work_pathArgs_ge (A : DoubleArith) (g : Globals) (inp : Input) (h0 : g.sum 0 = 0)
    (hnn : NonNegBoxes inp.boxes) (hov : NoOverflow inp.boxes) {lo' : ℤ} {hi' : ℚ}
    (h : PathArgs A (workSums A g inp) inp.n (perimeterSum inp.boxes)
      ((perimeterSum inp.boxes : ℤ) : ℚ) lo' hi') :
    perimeterSum inp.boxes ≤ lo' ∧ ((perimeterSum inp.boxes : ℤ) : ℚ) ≤ hi' := by
  obtain ⟨b1, _, _, b4⟩ := noOverflow_bounds inp.boxes hnn hov
  exact pathArgs_ge A _ _ _ _ (maxCost inp.boxes)
    (fun i i0 i1 => workSums_cs_bounds A g inp hnn hov i i0 i1)
    (fun k k0 k1 => workSums_sum_nonneg A g inp h0 k k0 (le_of_lt k1)) (by omega) b4 h

/-! ## The answer against the cap -/

theorem work_neg_one_of_lt (A : DoubleArith) (g : Globals) (inp : Input) (h0 : g.sum 0 = 0)
    (hnn : NonNegBoxes inp.boxes) (hov : NoOverflow inp.boxes)
    (hp : inp.p < perimeterSum inp.boxes) : (work A g inp).1 = -1 := by
  rw [work_fst_fit A g inp hnn (noOverflow_bounds inp.boxes hnn hov).2.1]
  obtain ⟨lo', hi', hpa, hv⟩ := (isPathCheck_iff A _ _ _ _ _).1
    (rec_zero A (workSums A g inp) inp.n (perimeterSum inp.boxes)
      ((perimeterSum inp.boxes : ℤ) : ℚ)).1
  obtain ⟨hlo, hhi⟩ := work_pathArgs_ge A g inp h0 hnn hov hpa
  rw [hv]
  apply check_eq_neg_one
  · rw [workSums_p]
    have : ((inp.p : ℤ) : ℚ) < ((perimeterSum inp.boxes : ℤ) : ℚ) := by exact_mod_cast hp
    exact lt_of_lt_of_le this hhi
  · rw [workSums_p]
    omega

/-- C14, counterexample: for the box `(600000000, 800000000)`, with sides that
are not negative, and the cap `P = 2000000000 < 2800000000`, the sum of
`2 * (w + h)`, the `int` total `have` wraps to `-1494967296` and `work`
returns `505032704`, not `-1`. -/
theorem work_not_neg_one_below_have :
    NonNegBoxes [(600000000, 800000000)] ∧
    (2000000000 : ℤ) < perimeterSum [(600000000, 800000000)] ∧
    (work exactArith zeroGlobals ⟨2000000000, [(600000000, 800000000)]⟩).1 ≠ -1 := by
  refine ⟨by decide, by decide, ?_⟩
  rw [work_box_overflow]
  norm_num [check]

/-- C14 (amended). For every test case with non-negative box dimensions in
which no `int` expression overflows (`have` plus three times the largest cost
is at most 2^31 - 1), and with `sum[0] = 0` as the program has it, the answer
of `work` is `-1` if and only if `P < have`; and whenever `P >= have` the
answer `a` satisfies `have <= a <= P`. -/
theorem work_neg_one_iff_cap_below_have (A : DoubleArith) (g : Globals) (inp : Input)
    (h0 : g.sum 0 = 0) (hnn : NonNegBoxes inp.boxes) (hov : NoOverflow inp.boxes) :
    ((work A g inp).1 = -1 ↔ inp.p < perimeterSum inp.boxes) ∧
    (perimeterSum inp.boxes ≤ inp.p →
      ((perimeterSum inp.boxes : ℤ) : ℚ) ≤ (work A g inp).1 ∧
        (work A g inp).1 ≤ (inp.p : ℚ)) := by
  obtain ⟨hH, hM, _, _⟩ := noOverflow_bounds inp.boxes hnn hov
  have hHq : (0 : ℚ) ≤ ((perimeterSum inp.boxes : ℤ) : ℚ) := by exact_mod_cast hH
  constructor
  · constructor
    · intro hneg
      by_contra hlt
      have hge := have_le_work A g inp hnn hM (not_lt.1 hlt)
      rw [hneg] at hge
      linarith
    · exact work_neg_one_of_lt A g inp h0 hnn hov
  · intro hle
    exact ⟨have_le_work A g inp hnn hM hle, work_le_cap A g inp (by omega)⟩

/-- Witness of C14 (amended): the box `(3, 4)` with the cap `P = 10 < 14 = have`. -/
theorem work_neg_one_iff_cap_below_have_witness :
    zeroGlobals.sum 0 = 0 ∧ NonNegBoxes [(3, 4)] ∧ NoOverflow [(3, 4)] ∧
    (work exactArith zeroGlobals ⟨10, [(3, 4)]⟩).1 = -1 :=
  ⟨rfl, by decide, by decide,
   (work_neg_one_iff_cap_below_have exactArith zeroGlobals ⟨10, [(3, 4)]⟩ rfl
      (by decide) (by decide)).1.2 (by decide)⟩

/-- For 32-bit sides that are not negative, `hypot(w, h)` is at least
`min(w, h)`: the relative error `2^-52` of `hypot` is far smaller than the
factor `sqrt 2` between `min(w, h)` and the root of `w^2 + h^2`. -/
theorem hypot_ge_min (A : DoubleArith) (w h : ℤ) (hw : 0 ≤ w) (hw' : w ≤ 2147483647)
    (hh : 0 ≤ h) (hh' : h ≤ 2147483647) : ((min w h : ℤ) : ℚ) ≤ A.hypot w h := by
  have hr := A.hypot_nonneg w h
  have hge := A.hypot_sq_ge w h (by omega) hw' (by omega) hh'
  have hm0 : (0 : ℚ) ≤ ((min w h : ℤ) : ℚ) := by exact_mod_cast le_min hw hh
  have hmw : ((min w h : ℤ) : ℚ) ≤ (w : ℚ) := by exact_mod_cast min_le_left w h
  have hmh : ((min w h : ℤ) : ℚ) ≤ (h : ℚ) := by exact_mod_cast min_le_right w h
  generalize ((min w h : ℤ) : ℚ) = m at hm0 hmw hmh ⊢
  by_contra hlt
  push_neg at hlt
  have h1 : A.hypot w h * A.hypot w h < m * m := mul_lt_mul'' hlt hlt hr hr
  have h2 : m * m ≤ (w : ℚ) * (w : ℚ) := mul_le_mul hmw hmw hm0 (le_trans hm0 hmw)
  have h3 : m * m ≤ (h : ℚ) * (h : ℚ) := mul_le_mul hmh hmh hm0 (le_trans hm0 hmh)
  have hE : (1 : ℚ) / 2 ≤ (1 - 1 / 2 ^ 52) ^ 2 := by norm_num
  have hN : (0 : ℚ) ≤ ((w * w + h * h : ℤ) : ℚ) := by
    exact_mod_cast add_nonneg (mul_self_nonneg w) (mul_self_nonneg h)
  have h4 := mul_le_mul_of_nonneg_right hE hN
  have h5 : ((w * w + h * h : ℤ) : ℚ) = (w : ℚ) * (w : ℚ) + (h : ℚ) * (h : ℚ) := by push_cast; ring
  have h6 : A.hypot w h ^ 2 = A.hypot w h * A.hypot w h := by ring
  rw [h5] at h4 hge
  linarith

theorem item_cost_le_value (A : DoubleArith) (b : ℤ × ℤ) (hb : 0 ≤ b.1 ∧ 0 ≤ b.2)
    (hfit : 2 * (b.1 + b.2) ≤ 2147483647) : (((item A b).1 : ℤ) : ℚ) ≤ (item A b).2 := by
  have h := hypot_ge_min A b.1 b.2 hb.1 (by omega) hb.2 (by omega)
  rw [item_cost_eq A b hb hfit]
  simp only [item]
  push_cast
  push_cast at h
  linarith

theorem reach_work_inv (A : DoubleArith) (g : Globals) (inp : Input)
    (hnn : NonNegBoxes inp.boxes) (hov : NoOverflow inp.boxes) (c : Call)
    (hc : Reach A (workSums A g inp)
      { lvl := 0, n := inp.n, lo := perimeterSum inp.boxes,
        hi := ((perimeterSum inp.boxes : ℤ) : ℚ) } c) :
    0 ≤ c.n ∧ c.n ≤ inp.n ∧ 0 ≤ c.lvl ∧ c.lvl ≤ 3 ∧ perimeterSum inp.boxes ≤ c.lo ∧
      c.lo ≤ perimeterSum inp.boxes + c.lvl * maxCost inp.boxes ∧ (c.lo : ℚ) ≤ c.hi := by
  obtain ⟨b1, b2, b3, b4⟩ := noOverflow_bounds inp.boxes hnn hov
  induction hc with
  | root => exact ⟨by simp [Input.n], le_refl _, le_refl _, by norm_num, le_refl _, by simp,
      le_refl _⟩
  | @step c d _ hd ih =>
    obtain ⟨dl, dlvl, d0, d1, dlo, dhi⟩ := calls_step hd
    obtain ⟨_, i1, i2, _, i4, i5, i6⟩ := ih
    obtain ⟨b, hb, he⟩ := workSums_cs_item A g inp _ d0 (lt_of_lt_of_le d1 i1)
    obtain ⟨c0, c1, _⟩ := workSums_cs_bounds A g inp hnn hov d.n d0 (lt_of_lt_of_le d1 i1)
    have hsum := le_perimeterSum inp.boxes hnn b hb
    have hcv := item_cost_le_value A b (hnn b hb) (by omega)
    rw [← he] at hcv
    have hmul : c.lvl * maxCost inp.boxes ≤ 2 * maxCost inp.boxes :=
      mul_le_mul_of_nonneg_right (by omega) b3
    have hstep : (c.lvl + 1) * maxCost inp.boxes =
        c.lvl * maxCost inp.boxes + maxCost inp.boxes := by ring
    have hlo : d.lo = c.lo + ((workSums A g inp).cs d.n).1 := by
      rw [dlo]
      exact wrap_eq_self (by omega) (by omega)
    refine ⟨d0, by omega, by omega, by omega, by omega, ?_, ?_⟩
    · rw [dlvl, hstep]
      omega
    · rw [dhi]
      apply A.add_int _ _ _ (by omega) (by omega)
      rw [hlo]
      push_cast
      linarith

/-- C15, counterexample: for the box `(400000000, 400000000)`, with sides that
are not negative, `have` is 1600000000 and the call made by the root call
`rec(0, 1, have, have)` of `work` has `lo = have + 800000000` wrapped to
`-1894967296`, which is below `have`. -/
theorem reachable_call_lo_wraps :
    NonNegBoxes [(400000000, 400000000)] ∧
    (readLoop exactArith zeroGlobals.cs [(400000000, 400000000)]).have_ = 1600000000 ∧
    ∃ c : Call,
      Reach exactArith (workSums exactArith zeroGlobals ⟨10, [(400000000, 400000000)]⟩)
        { lvl := 0, n := 1, lo := 1600000000, hi := 1600000000 } c ∧
      c.lo = -1894967296 ∧ ¬ (1600000000 ≤ c.lo) := by
  refine ⟨by decide, ?_, ?_⟩
  · rw [readLoop_have]
    decide
  · have hlo : wrap (1600000000 +
        ((workSums exactArith zeroGlobals ⟨10, [(400000000, 400000000)]⟩).cs 0).1) =
        -1894967296 := by
      rw [workSums_cs_single]
      simp only [item]
      decide
    have hr : Reach exactArith
        (workSums exactArith zeroGlobals ⟨10, [(400000000, 400000000)]⟩)
        { lvl := 0, n := 1, lo := 1600000000, hi := 1600000000 }
        { lvl := 0 + 1, n := 0,
          lo := wrap (1600000000 +
            ((workSums exactArith zeroGlobals ⟨10, [(400000000, 400000000)]⟩).cs 0).1),
          hi := exactArith.add 1600000000
            ((workSums exactArith zeroGlobals ⟨10, [(400000000, 400000000)]⟩).cs 0).2 } :=
      Reach.step Reach.root (mem_calls.2 ⟨by decide, 0, by decide, by decide, rfl⟩)
    refine ⟨_, hr, hlo, ?_⟩
    rw [hlo]
    decide

/-- C15 (amended). For every test case with non-negative box dimensions in
which no `int` expression overflows (`have` plus three times the largest cost
is at most 2^31 - 1), and with `sum[0] = 0` as the program has it, every call
`rec(lvl, n', lo, hi)` reachable from the root call `rec(0, n, have, have)` of
`work` satisfies `have <= lo <= hi`, and the pair it passes to `check`
satisfies `lo <= hi` as well. -/
theorem reachable_calls_lo_le_hi (A : DoubleArith) (g : Globals) (inp : Input)
    (h0 : g.sum 0 = 0) (hnn : NonNegBoxes inp.boxes) (hov : NoOverflow inp.boxes) (c : Call)
    (hc : Reach A (workSums A g inp)
      { lvl := 0, n := inp.n, lo := perimeterSum inp.boxes,
        hi := ((perimeterSum inp.boxes : ℤ) : ℚ) } c) :
    perimeterSum inp.boxes ≤ c.lo ∧ (c.lo : ℚ) ≤ c.hi ∧
    (c.lo : ℚ) ≤ A.add c.hi (if c.lvl = 3 then (workSums A g inp).sum c.n else 0) := by
  obtain ⟨i0, i1, _, _, i2, _, i3⟩ := reach_work_inv A g inp hnn hov c hc
  refine ⟨i2, i3, ?_⟩
  split_ifs with h3
  · exact le_trans i3
      (le_add_of_nonneg A _ _ (workSums_sum_nonneg A g inp h0 c.n i0 i1))
  · rw [A.add_zero]
    exact i3

/-- Witness of C15 (amended): the call made for the box `(3, 4)`, in exact
arithmetic. -/
theorem reachable_calls_lo_le_hi_witness :
    zeroGlobals.sum 0 = 0 ∧ NonNegBoxes [(3, 4)] ∧ NoOverflow [(3, 4)] ∧
    (14 : ℤ) ≤ wrap (14 + ((workSums exactArith zeroGlobals ⟨10, [(3, 4)]⟩).cs 0).1) := by
  have hr : Reach exactArith (workSums exactArith zeroGlobals ⟨10, [(3, 4)]⟩)
      { lvl := 0, n := (⟨10, [(3, 4)]⟩ : Input).n, lo := perimeterSum [(3, 4)],
        hi := ((perimeterSum [(3, 4)] : ℤ) : ℚ) }
      { lvl := 0 + 1, n := 0,
        lo := wrap (perimeterSum [(3, 4)] +
          ((workSums exactArith zeroGlobals ⟨10, [(3, 4)]⟩).cs 0).1),
        hi := exactArith.add ((perimeterSum [(3, 4)] : ℤ) : ℚ)
          ((workSums exactArith zeroGlobals ⟨10, [(3, 4)]⟩).cs 0).2 } :=
    Reach.step Reach.root (mem_calls.2 ⟨by decide, 0, by decide, by decide, rfl⟩)
  have h := reachable_calls_lo_le_hi exactArith zeroGlobals ⟨10, [(3, 4)]⟩ rfl (by decide)
    (by decide) _ hr
  exact ⟨rfl, by decide, by decide, h.1⟩

/-! ## The order of the boxes -/

theorem pairLe_antisymm (a b : Item) (hab : pairLe a b) (hba : pairLe b a) : a = b := by
  rcases (pairLe_iff a b).1 hab with h | ⟨h, h'⟩ <;>
    rcases (pairLe_iff b a).1 hba with k | ⟨k, k'⟩
  · omega
  · omega
  · omega
  · exact Prod.ext h (le_antisymm h' k')

theorem perimeterSum_perm {l₁ l₂ : List (ℤ × ℤ)} (h : l₁.Perm l₂) :
    perimeterSum l₁ = perimeterSum l₂ := by
  unfold perimeterSum
  exact (h.map _).sum_eq

theorem sorted_items_perm (A : DoubleArith) {l₁ l₂ : List (ℤ × ℤ)} (h : l₁.Perm l₂) :
    (l₁.map (item A)).insertionSort pairLe = (l₂.map (item A)).insertionSort pairLe := by
  haveI : IsAntisymm Item pairLe := ⟨pairLe_antisymm⟩
  apply List.eq_of_perm_of_sorted (r := pairLe)
  · exact ((List.perm_insertionSort pairLe _).trans (h.map _)).trans
      (List.perm_insertionSort pairLe _).symm
  · exact List.sorted_insertionSort pairLe _
  · exact List.sorted_insertionSort pairLe _

/-- Two test cases with the same cap, the same number of boxes, the same total
and the same sorted items get the same answer. -/
theorem work_congr_inputs (A : DoubleArith) (g : Globals) (inp₁ inp₂ : Input)
    (hp : inp₁.p = inp₂.p) (hn : inp₁.boxes.length = inp₂.boxes.length)
    (hH : perimeterSum inp₁.boxes = perimeterSum inp₂.boxes)
    (hL : (inp₁.boxes.map (item A)).insertionSort pairLe =
      (inp₂.boxes.map (item A)).insertionSort pairLe) :
    (work A g inp₁).1 = (work A g inp₂).1 := by
  have hnn : inp₁.n = inp₂.n := by simp [Input.n, hn]
  have hcs : ∀ i : ℤ, 0 ≤ i → i < inp₁.n →
      (workSums A g inp₁).cs i = (workSums A g inp₂).cs i := by
    intro i h0 h1
    obtain ⟨k, rfl⟩ := Int.eq_ofNat_of_zero_le h0
    have hk : k < inp₁.boxes.length := by
      simp only [Input.n] at h1
      omega
    rw [workSums_cs, workSums_cs, workSort_cs A g inp₁ k hk,
      workSort_cs A g inp₂ k (by omega), hL]
  have hsum : ∀ i : ℤ, 0 ≤ i → i ≤ inp₁.n →
      (workSums A g inp₁).sum i = (workSums A g inp₂).sum i := by
    intro i h0 h1
    obtain ⟨k, rfl⟩ := Int.eq_ofNat_of_zero_le h0
    have hk : k ≤ inp₁.boxes.length := by
      simp only [Input.n] at h1
      omega
    rw [workSums_sum A g inp₁ k hk, workSums_sum A g inp₂ k (by omega),
      cells_congr _ _ _ (fun j hj0 hj1 => hcs j hj0 (by omega))]
  have hhave : haveOf inp₁.boxes = haveOf inp₂.boxes := by
    rw [haveOf_eq_wrap, haveOf_eq_wrap, hH]
  rw [work_fst, work_fst, ← hnn, ← hhave]
  exact rec_congr A (workSums A g inp₁) (workSums A g inp₂)
    (by rw [workSums_p, workSums_p, hp]) 3 0 inp₁.n _ _ rfl (by simp [Input.n]) hcs hsum

/-- C17. The answer does not depend on the order of the boxes: for every cap
`p` and every two box lists that are permutations of each other, `work`
returns the same answer. -/
theorem work_perm (A : DoubleArith) (g : Globals) (p : ℤ) (boxes₁ boxes₂ : List (ℤ × ℤ))
    (h : boxes₁.Perm boxes₂) : (work A g ⟨p, boxes₁⟩).1 = (work A g ⟨p, boxes₂⟩).1 :=
  work_congr_inputs A g ⟨p, boxes₁⟩ ⟨p, boxes₂⟩ rfl h.length_eq (perimeterSum_perm h)
    (sorted_items_perm A h)

/-- Witness of C17: the boxes `(3, 4)`, `(5, 12)` in both orders. -/
theorem work_perm_witness :
    (work exactArith zeroGlobals ⟨50, [(3, 4), (5, 12)]⟩).1 =
      (work exactArith zeroGlobals ⟨50, [(5, 12), (3, 4)]⟩).1 :=
  work_perm exactArith zeroGlobals 50 [(3, 4), (5, 12)] [(5, 12), (3, 4)]
    (List.Perm.swap _ _ _)

/-! ## Array accesses stay inside the buffers -/

theorem readAt_eq {α : Type} (buf : ℤ → α) (i : ℤ) (h0 : 0 ≤ i) (h1 : i < N) :
    readAt buf i = some (buf i) := by
  simp [readAt, h0, h1]

theorem writeAt_eq {α : Type} (buf : ℤ → α) (i : ℤ) (v : α) (h0 : 0 ≤ i) (h1 : i < N) :
    writeAt buf i v = some (Function.update buf i v) := by
  simp [writeAt, h0, h1]

theorem foldl_some {ι β : Type} (F : Option β → ι → Option β) (f : β → ι → β) (l : List ι)
    (h : ∀ a, ∀ i ∈ l, F (some a) i = some (f a i)) (a : β) :
    l.foldl F (some a) = some (l.foldl f a) := by
  induction l generalizing a with
  | nil => rfl
  | cons b t ih =>
    simp only [List.foldl_cons]
    rw [h a b (List.mem_cons_self _ _)]
    exact ih (fun a i hi => h a i (List.mem_cons_of_mem _ hi)) _

/-- With an index bound inside the buffers no access of `rec` fails, and the
checked function returns the value of `rec`. -/
theorem recC_eq (A : DoubleArith) (g : Globals) :
    ∀ (k : ℕ) (lvl n lo : ℤ) (hi : ℚ), (3 - lvl).toNat = k → 0 ≤ n → n < N →
      recC A g lvl n lo hi = some (rec A g lvl n lo hi) := by
  intro k
  induction k with
  | zero =>
    intro lvl n lo hi hk hn0 hn1
    have h3 : 3 ≤ lvl := by omega
    rw [recC, rec_of_ge A g h3]
    by_cases h : lvl = 3
    · simp [h, readAt_eq g.sum n hn0 hn1]
    · simp [h, not_lt.2 h3]
  | succ k ih =>
    intro lvl n lo hi hk hn0 hn1
    have h3 : lvl < 3 := by omega
    have hne : lvl ≠ 3 := by omega
    rw [recC, rec_of_lt A g h3]
    simp only [hne, if_false, h3, dite_true, A.add_zero]
    apply foldl_some
    intro a i hi'
    obtain ⟨i0, i1⟩ := mem_rep.1 hi'
    rw [readAt_eq g.cs i i0 (by omega)]
    simp only []
    rw [ih (lvl + 1) i _ _ (by omega) i0 (by omega)]
    rfl

theorem readLoopC_fold (A : DoubleArith) :
    ∀ (boxes : List (ℤ × ℤ)) (s : ReadState), 0 ≤ s.ce → s.ce + (boxes.length : ℤ) ≤ N →
      boxes.foldl (fun acc b => acc.bind fun s => readStepC A s b) (some s) =
        some (boxes.foldl (readStep A) s) := by
  intro boxes
  induction boxes with
  | nil => intro s _ _; rfl
  | cons b t ih =>
    intro s h0 h1
    simp only [List.length_cons] at h1
    push_cast at h1
    simp only [List.foldl_cons, Option.some_bind]
    have hstep : readStepC A s b = some (readStep A s b) := by
      simp only [readStepC, writeAt_eq s.cs s.ce (item A b) h0 (by omega), Option.map_some']
      rfl
    rw [hstep]
    apply ih
    · simp only [readStep]; omega
    · simp only [readStep]; omega

theorem readLoopC_eq (A : DoubleArith) (cs : ℤ → Item) (boxes : List (ℤ × ℤ))
    (h : (boxes.length : ℤ) ≤ N) : readLoopC A cs boxes = some (readLoop A cs boxes) := by
  unfold readLoopC readLoop
  exact readLoopC_fold A boxes _ (le_refl 0) (by simpa using h)

theorem sumLoopC_eq (A : DoubleArith) (cs : ℤ → Item) (sum : ℤ → ℚ) :
    ∀ m : ℕ, (m : ℤ) < N → sumLoopC A cs sum (m : ℤ) = some (sumLoop A cs sum (m : ℤ)) := by
  intro m
  induction m with
  | zero => intro _; rfl
  | succ m ih =>
    intro hm
    have hcast : ((m + 1 : ℕ) : ℤ) = (m : ℤ) + 1 := by push_cast; rfl
    rw [hcast] at hm ⊢
    have ih' := ih (by omega)
    rw [sumLoop_succ]
    unfold sumLoopC at ih' ⊢
    rw [rep_succ, List.foldl_append, ih']
    simp only [List.foldl_cons, List.foldl_nil, Option.some_bind]
    rw [readAt_eq _ (m : ℤ) (by omega) (by omega), Option.some_bind,
      readAt_eq cs (m : ℤ) (by omega) (by omega), Option.some_bind,
      writeAt_eq _ _ _ (by omega) hm]

theorem workC_eq (A : DoubleArith) (g : Globals) (inp : Input) (hn : inp.n ≤ 104) :
    workC A g inp = some (work A g inp) := by
  have hlen : (inp.boxes.length : ℤ) ≤ 104 := hn
  have hN : N = 105 := rfl
  unfold workC
  rw [readLoopC_eq A g.cs inp.boxes (by omega), Option.some_bind]
  have hsort : sortRangeC (readLoop A g.cs inp.boxes).cs (readLoop A g.cs inp.boxes).ce =
      some (sortRange (readLoop A g.cs inp.boxes).cs (readLoop A g.cs inp.boxes).ce) := by
    have h1 : (0 : ℤ) ≤ (inp.boxes.length : ℤ) ∧ (inp.boxes.length : ℤ) ≤ N :=
      ⟨by omega, by omega⟩
    simp only [sortRangeC, readLoop_ce, h1, and_self, if_true]
  rw [hsort, Option.some_bind]
  have hsum := sumLoopC_eq A
    (sortRange (readLoop A g.cs inp.boxes).cs (readLoop A g.cs inp.boxes).ce) g.sum
    inp.boxes.length (by omega)
  rw [Input.n, hsum, Option.some_bind,
    recC_eq A _ 3 0 _ _ _ rfl (by omega) (by omega), Option.map_some']
  rfl

theorem work_cs_frame (A : DoubleArith) (g : Globals) (inp : Input) (i : ℤ)
    (hi : i < 0 ∨ inp.n ≤ i) : (work A g inp).2.cs i = g.cs i := by
  have hnot : ¬ (0 ≤ i ∧ i < (readLoop A g.cs inp.boxes).ce) := by
    rw [readLoop_ce]
    simp only [Input.n] at hi
    omega
  have h1 : (work A g inp).2.cs i = (readLoop A g.cs inp.boxes).cs i := by
    show sortRange _ _ i = _
    simp only [sortRange, hnot, if_false]
  rw [h1]
  have h := (foldl_readStep A inp.boxes { cs := g.cs, ce := 0, have_ := 0 }).2.2.2 i
    (by simp only [Input.n] at hi; simpa using hi)
  simpa [readLoop] using h

theorem work_sum_frame (A : DoubleArith) (g : Globals) (inp : Input) (i : ℤ)
    (hi : i ≤ 0 ∨ inp.n < i) : (work A g inp).2.sum i = g.sum i := by
  have h := (sumLoop_spec A (workSort A g inp).cs (workSort A g inp).sum inp.boxes.length).2 i
    (by simp only [Input.n] at hi; exact hi)
  simpa [work, workSums, Input.n, workSort] using h

/-- A read at the index `N = 105` fails: the checked accesses do reject indices
outside the buffers. -/
theorem recC_out_of_bounds (A : DoubleArith) (g : Globals) (lo : ℤ) (hi : ℚ) :
    recC A g 3 105 lo hi = none := by
  rw [recC]
  simp [readAt, N]

/-- C18. For every test case with `0 <= n <= 104`, every array access of
`work` and of its call `rec(0, n, have, have)` is inside the buffers of 105
cells: the program with checked accesses returns a result, the one of `work`.
`work` leaves every cell of `cs` outside `0 .. n - 1` and every cell of `sum`
outside `1 .. n` as it was, and the value of `rec(0, n, lo, hi)` depends on
the buffers only through `cs[i]` with `0 <= i < n` and `sum[k]` with
`0 <= k <= n`. -/
theorem work_accesses_in_bounds (A : DoubleArith) (g : Globals) (inp : Input)
    (hn : inp.n ≤ 104) :
    0 ≤ inp.n ∧
    workC A g inp = some (work A g inp) ∧
    (∀ i, i < 0 ∨ inp.n ≤ i → (work A g inp).2.cs i = g.cs i) ∧
    (∀ i, i ≤ 0 ∨ inp.n < i → (work A g inp).2.sum i = g.sum i) ∧
    (∀ g' : Globals, g'.p = (work A g inp).2.p →
      (∀ i, 0 ≤ i → i < inp.n → g'.cs i = (work A g inp).2.cs i) →
      (∀ k, 0 ≤ k → k ≤ inp.n → g'.sum k = (work A g inp).2.sum k) →
      ∀ (lo : ℤ) (hi : ℚ), rec A g' 0 inp.n lo hi = rec A (work A g inp).2 0 inp.n lo hi) := by
  have h0 : 0 ≤ inp.n := by simp [Input.n]
  refine ⟨h0, workC_eq A g inp hn, work_cs_frame A g inp, work_sum_frame A g inp, ?_⟩
  intro g' hp hcs hsum lo hi
  exact rec_congr A g' (work A g inp).2 hp 3 0 inp.n lo hi rfl h0 hcs hsum

/-- Witness of C18: two boxes; the checked program returns the result of `work`. -/
theorem work_accesses_in_bounds_witness :
    (⟨50, [(3, 4), (5, 12)]⟩ : Input).n ≤ 104 ∧
    workC exactArith zeroGlobals ⟨50, [(3, 4), (5, 12)]⟩ =
      some (work exactArith zeroGlobals ⟨50, [(3, 4), (5, 12)]⟩) :=
  ⟨by decide,
   (work_accesses_in_bounds exactArith zeroGlobals ⟨50, [(3, 4), (5, 12)]⟩ (by decide)).2.1⟩

end EdgyBaking
